import Mathlib

/-!
# Verification of the pi-team coordination daemon against its specification

Shallow embedding of the `pi-team` repository's core:

* `src/io/index.ts` — path-safe I/O layer (`safeJoin`, `readJsonlSafe`);
* `src/teamd/store.ts` — the persistent store (`TeamdStore`) with its task
  state machine, lease/epoch fencing, idempotent task creation, dependency
  unblocking and can-write check;
* `src/extension/teamd-client.ts` — the guard client's environment discovery.

Modelling conventions (stated once, used throughout):

* Wall-clock instants and RFC 3339 timestamp strings are represented as `Nat`
  milliseconds; `Date.now()` / `new Date(..).toISOString()` / `Date.parse` are
  the identity under this representation.  Each store operation receives the
  single instant `now` at which it runs.
* `randomUUID()` is modelled by a fresh-counter field of the store state; no
  claim observes the generated identifiers.
* The constant `schemaVersion` field carried by every persisted record is
  omitted; it is the same literal on every record and no claim mentions it.
* Error `message` strings (human-readable interpolations) are omitted; errors
  are the `(statusCode, code)` pair exposed by `TeamdStoreError`, resp. the
  `code` of `IoError`.
* The filesystem seen by `safeJoin` is an explicit parameter `Fs`:
  `realpath` for the root argument and an `lstat`-style lookup returning
  whether a path is missing, an ordinary file/directory, or a symbolic link
  together with the link's real target (`none` models a dangling link, whose
  `realpath` raises `ENOENT`).
* The `tasks/` directory is a list of task records; writing `tasks/<id>.json`
  replaces the record with that id or appends a new one.
* Node's `path.posix` functions (`normalize`, `resolve`, `join`) are modelled
  character-for-character on `List Char`.
-/

namespace PiTeam

/-! ## Node `path.posix` model -/

/-- JS `String.prototype.split` with a one-character separator, on character
lists.  `"".split(sep) = [""]`, `"/".split("/") = ["", ""]`. -/
def splitOnChar (sep : Char) : List Char → List (List Char)
  | [] => [[]]
  | c :: rest =>
    if c = sep then [] :: splitOnChar sep rest
    else
      match splitOnChar sep rest with
      | [] => [[c]]
      | p :: ps => (c :: p) :: ps

/-- `s.split("/")`. -/
def splitSlash : List Char → List (List Char) :=
  splitOnChar '/'

/-- Join components with `'/'` (inverse of `splitSlash`). -/
def intercalateSlash : List (List Char) → List Char
  | [] => []
  | [p] => p
  | p :: ps => p ++ '/' :: intercalateSlash ps

/-- The component-stack loop of Node's `normalizeString` (posix): empty and
`"."` components are skipped, `".."` pops a plain component, is kept when the
stack already holds leading `".."`s (relative paths, `allowAboveRoot`), and is
dropped at the root of an absolute path.  The accumulator is the reversed
stack. -/
def npStack (allowAboveRoot : Bool) : List (List Char) → List (List Char) → List (List Char)
  | [], acc => acc
  | c :: rest, acc =>
    if c = [] ∨ c = ['.'] then npStack allowAboveRoot rest acc
    else if c = ['.', '.'] then
      match acc with
      | [] => npStack allowAboveRoot rest (if allowAboveRoot then [c] else [])
      | p :: tl =>
        if p = ['.', '.'] then npStack allowAboveRoot rest (c :: p :: tl)
        else npStack allowAboveRoot rest tl
    else npStack allowAboveRoot rest (c :: acc)

/-- Normalized components of a split path. -/
def normalizeParts (allowAboveRoot : Bool) (ps : List (List Char)) : List (List Char) :=
  (npStack allowAboveRoot ps []).reverse

/-- Node `path.posix.normalize` on character lists. -/
def posixNormalizeChars (cs : List Char) : List Char :=
  if cs = [] then ['.']
  else
    let isAbs := cs.head? = some '/'
    let trailing := cs.getLast? = some '/'
    let body := intercalateSlash (normalizeParts (!isAbs) (splitSlash cs))
    if isAbs then
      if body = [] then ['/']
      else ('/' :: body) ++ (if trailing then ['/'] else [])
    else
      if body = [] then (if trailing then ['.', '/'] else ['.'])
      else body ++ (if trailing then ['/'] else [])

/-- Node `path.posix.normalize`. -/
def posixNormalize (s : String) : String :=
  String.mk (posixNormalizeChars s.data)

/-- Node `path.posix.isAbsolute`. -/
def posixIsAbsolute (s : String) : Bool :=
  s.data.head? = some '/'

/-- Node `path.posix.resolve base rel` for an absolute `base` and a relative
`rel` (the only case exercised by the source): the concatenation is normalized
with `allowAboveRoot = false` and the result re-rooted at `"/"`. -/
def posixResolveAbs (base rel : String) : String :=
  let body := intercalateSlash (normalizeParts false (splitSlash (base.data ++ '/' :: rel.data)))
  if body = [] then String.mk ['/'] else String.mk ('/' :: body)

/-- Node `path.posix.join a b` for non-empty arguments:
`normalize(a + "/" + b)`. -/
def posixJoin2 (a b : String) : String :=
  String.mk (posixNormalizeChars (a.data ++ '/' :: b.data))

/-- JS `s.startsWith(p)`. -/
def strStartsWith (s p : String) : Bool :=
  p.data.isPrefixOf s.data

/-- JS `s.endsWith(p)`. -/
def strEndsWith (s p : String) : Bool :=
  p.data.isSuffixOf s.data

/-- JS `hay.includes(needle)` on character lists. -/
def containsSub : List Char → List Char → Bool
  | hay, needle =>
    needle.isPrefixOf hay ||
      match hay with
      | [] => false
      | _ :: t => containsSub t needle

/-- JS `s.includes(sub)`. -/
def strContains (s sub : String) : Bool :=
  containsSub s.data sub.data

/-! ## Path-safe I/O layer (`src/io/index.ts`) -/

/-- `IoError` of the I/O layer; `code` is one of the string literals of the
source's `IoErrorCode` union (`"PATH_TRAVERSAL" | "SYMLINK_ESCAPE" |
"INVALID_JSONL_LINE"`).  The human-readable `message` is omitted. -/
structure IoError where
  code : String
deriving DecidableEq, Repr

/-- `isWithinRoot(rootPath, targetPath)`:
`targetPath === rootPath || targetPath.startsWith(rootPath + sep)`. -/
def isWithinRoot (rootPath targetPath : String) : Bool :=
  targetPath = rootPath || strStartsWith targetPath (rootPath ++ "/")

/-- `assertNoTraversal(relative)`: rejects absolute paths, then rejects any
`..` component surviving lexical normalization. -/
def assertNoTraversal (relative : String) : Except IoError Unit :=
  if posixIsAbsolute relative then .error ⟨"PATH_TRAVERSAL"⟩
  else
    let normalized := posixNormalize relative
    if normalized = ".." || strStartsWith normalized "../" ||
        strContains normalized "/../" || strEndsWith normalized "/.." then
      .error ⟨"PATH_TRAVERSAL"⟩
    else .ok ()

/-- What `lstat` (plus `realpath` on links) reveals about one path. -/
inductive FsEntry where
  /-- `lstat` raises `ENOENT`. -/
  | missing
  /-- An ordinary file or directory (not a symbolic link). -/
  | real
  /-- A symbolic link; `target` is `realpath` of the link, `none` when the
  link dangles and `realpath` raises `ENOENT`. -/
  | symlink (target : Option String)
deriving DecidableEq, Repr

/-- The filesystem as seen by `safeJoin`. -/
structure Fs where
  /-- `fs.realpath` restricted to the root argument (assumed to exist). -/
  realpath : String → String
  /-- `lstat`/`realpath` for every candidate segment path. -/
  lookup : String → FsEntry

/-- The per-segment loop of `safeJoin`: `next = join(current, part)`; a missing
segment (or dangling link) stops the scan (`ENOENT` → `break`); a symbolic link
must have its real target inside `rootReal`, and the walk continues from that
target. -/
def walkSegments (fs : Fs) (rootReal : String) : List String → String → Except IoError Unit
  | [], _ => .ok ()
  | part :: rest, current =>
    let next := posixJoin2 current part
    match fs.lookup next with
    | .missing => .ok ()
    | .symlink none => .ok ()
    | .symlink (some linkTarget) =>
      if isWithinRoot rootReal linkTarget then walkSegments fs rootReal rest linkTarget
      else .error ⟨"SYMLINK_ESCAPE"⟩
    | .real => walkSegments fs rootReal rest next

/-- `safeJoin(teamRoot, relative)` (`src/io/index.ts`): traversal guard, real
path of the root, lexical resolution, containment check, then the per-segment
symlink walk; on success returns the lexically resolved `joined` path. -/
def safeJoin (fs : Fs) (teamRoot relative : String) : Except IoError String :=
  match assertNoTraversal relative with
  | .error e => .error e
  | .ok _ =>
    let rootReal := fs.realpath teamRoot
    let normalized := posixNormalize relative
    let joined := posixResolveAbs rootReal normalized
    if isWithinRoot rootReal joined then
      let parts := (splitSlash normalized.data).filter (· ≠ []) |>.map String.mk
      match walkSegments fs rootReal parts rootReal with
      | .error e => .error e
      | .ok _ => .ok joined
    else .error ⟨"PATH_TRAVERSAL"⟩

/-- One pass of `readJsonlSafe`'s line loop: empty lines are skipped, a line
that fails to parse aborts with `INVALID_JSONL_LINE`, parsed values are
collected in file order. -/
def parseLines {α : Type} (parse : String → Option α) : List (List Char) → Except IoError (List α)
  | [] => .ok []
  | line :: rest =>
    if line = [] then parseLines parse rest
    else
      match parse (String.mk line) with
      | none => .error ⟨"INVALID_JSONL_LINE"⟩
      | some v =>
        match parseLines parse rest with
        | .error e => .error e
        | .ok vs => .ok (v :: vs)

/-- `readJsonlSafe(path)` (`src/io/index.ts`) on the file's contents:
`none` models `ENOENT` (empty result), otherwise the raw text is split on
`"\n"`, the final element is dropped when the file does not end in a newline
(crash-interrupted append), and the remaining lines are parsed in order.
`JSON.parse` is the abstract parameter `parse` (`none` models a parse
failure). -/
def readJsonlSafe {α : Type} (parse : String → Option α) (contents : Option String) :
    Except IoError (List α) :=
  match contents with
  | none => .ok []
  | some raw =>
    let hasTrailingNewline := strEndsWith raw "\n"
    let allLines := splitOnChar '\n' raw.data
    let lines := if hasTrailingNewline then allLines else allLines.dropLast
    parseLines parse lines

/-! ## Store data model (`src/teamd/store.ts`) -/

/-- `TaskStatus`. -/
inductive TaskStatus where
  | pending
  | blocked
  | in_progress
  | completed
  | failed
  | canceled
deriving DecidableEq, Repr

/-- `TaskLease` (`expiresAt` in epoch milliseconds). -/
structure TaskLease where
  holder : String
  epoch : Nat
  expiresAt : Nat
deriving DecidableEq, Repr

/-- The `timestamps` object of a `TaskRecord` (epoch milliseconds). -/
structure TaskTimestamps where
  createdAt : Nat
  startedAt : Option Nat
  completedAt : Option Nat
  failedAt : Option Nat
deriving DecidableEq, Repr

/-- `TaskRecord`. -/
structure TaskRecord where
  id : String
  title : String
  description : String
  status : TaskStatus
  owner : Option String
  deps : List String
  resources : List String
  lease : Option TaskLease
  epoch : Nat
  timestamps : TaskTimestamps
deriving DecidableEq, Repr

/-- One entry of `TeamRecord.agents` (optional `budget` hints omitted: the
store never reads them). -/
structure TeamAgent where
  id : String
  role : String
  model : Option String
deriving DecidableEq, Repr

/-- `TeamRecord`. -/
structure TeamRecord where
  teamId : String
  agents : List TeamAgent
deriving DecidableEq, Repr

/-- `ThreadRecord`. -/
structure ThreadRecord where
  id : String
  title : String
  participants : List String
  taskId : Option String
  createdAt : Nat
  updatedAt : Nat
deriving DecidableEq, Repr

/-- `ThreadMessageRecord` (`from` is a Lean keyword, rendered `fromAgent`). -/
structure ThreadMessageRecord where
  id : String
  threadId : String
  fromAgent : String
  body : String
  ts : Nat
deriving DecidableEq, Repr

/-- `InboxEventRecord`. -/
structure InboxEventRecord where
  id : String
  cursor : Nat
  type : String
  teamId : String
  agentId : String
  taskId : Option String
  threadId : Option String
  actor : Option String
  summary : Option String
  content : Option String
  ts : Nat
deriving DecidableEq, Repr

/-- `InboxState` (one `inboxes/<agentId>.json` file). -/
structure InboxState where
  nextCursor : Nat
  events : List InboxEventRecord
deriving DecidableEq, Repr

/-- One audit record of `audit/events.jsonl` (the opaque `data` payload is
omitted: it is observational only and no claim reads it). -/
structure AuditEvent where
  id : String
  actor : String
  type : String
  refs : List (String × String)
  ts : Nat
deriving DecidableEq, Repr

/-- One entry of `idempotency/create-task.json`. -/
structure IdemEntry where
  taskId : String
  createdAt : Nat
deriving DecidableEq, Repr

/-- `TeamdStoreError` as the `(statusCode, code)` pair. -/
structure TeamdStoreError where
  statusCode : Nat
  code : String
deriving DecidableEq, Repr

/-- The on-disk state owned by one `TeamdStore`: the team file, the `tasks/`
directory, the thread index and per-thread `jsonl` files, the `inboxes/`
directory, the audit log, and the create-task idempotency map.  `uuid` is the
fresh-counter model of `randomUUID()`. -/
structure StoreState where
  team : Option TeamRecord
  tasks : List TaskRecord
  threads : List ThreadRecord
  threadFiles : List (String × List ThreadMessageRecord)
  inboxes : List (String × InboxState)
  idempotency : List (String × IdemEntry)
  audit : List AuditEvent
  uuid : Nat
deriving DecidableEq, Repr

/-- The immutable configuration of a `TeamdStore`: constructor options plus
the cached `resolveTeamDir()` result (computed once during `initialize`). -/
structure StoreConfig where
  workspaceRoot : String
  teamId : String
  defaultLeaseTtlMs : Nat
  teamDir : String
deriving DecidableEq, Repr

/-- Outcome of a store operation: the produced value or thrown error, together
with the on-disk state when the operation returns (errors thrown after partial
writes keep those writes, exactly as on a real filesystem). -/
inductive OpResult (α : Type) where
  | ok (value : α) (state : StoreState)
  | error (e : TeamdStoreError) (state : StoreState)
deriving Repr

/-- Whether the operation returned normally. -/
def OpResult.isOk {α : Type} : OpResult α → Bool
  | .ok _ _ => true
  | .error _ _ => false

/-- The on-disk state after the operation (kept on both paths). -/
def OpResult.state {α : Type} : OpResult α → StoreState
  | .ok _ s => s
  | .error _ s => s

/-- The returned value of an operation, when it succeeded. -/
def OpResult.value? {α : Type} : OpResult α → Option α
  | .ok v _ => some v
  | .error _ _ => none

/-! ## Store helper functions -/

/-- `normalizePathPrefix`: `normalize`, backslashes to slashes, strip one
leading `"./"`, strip leading and trailing slashes. -/
def normalizePathPrefix (pathValue : String) : String :=
  let normalized := posixNormalize pathValue
  let slashes := String.mk (normalized.data.map (fun c => if c = '\\' then '/' else c))
  let noDotSlash := if strStartsWith slashes "./" then String.mk (slashes.data.drop 2) else slashes
  let noLead := String.mk (noDotSlash.data.dropWhile (· = '/'))
  String.mk (noLead.data.reverse.dropWhile (· = '/') |>.reverse)

/-- `resourceMatchesPath(resource, target)`. -/
def resourceMatchesPath (resource target : String) : Bool :=
  if resource = "" then true
  else target = resource || strStartsWith target (resource ++ "/")

/-- Decimal value of a digit string (JS `parseInt` base 10 on an all-digit
string; no overflow in `Nat`). -/
def digitsToNat (cs : List Char) : Nat :=
  cs.foldl (fun acc c => 10 * acc + (c.toNat - 48)) 0

/-- `parseTaskNumericId`: the `^task-(\d+)$` match, else `0`. -/
def parseTaskNumericId (taskId : String) : Nat :=
  let rest := taskId.data.drop 5
  if taskId.data.take 5 = "task-".data ∧ rest ≠ [] ∧ rest.all (·.isDigit) then
    digitsToNat rest
  else 0

/-- JS `String(n).padStart(4, "0")`. -/
def padStart4 (s : String) : String :=
  String.mk (List.replicate (4 - s.length) '0' ++ s.data)

/-- `buildTaskId`. -/
def buildTaskId (taskNumber : Nat) : String :=
  "task-" ++ padStart4 (Nat.repr taskNumber)

/-- `parseThreadNumericId`: the `^thread-(\d+)$` match, else `0`. -/
def parseThreadNumericId (threadId : String) : Nat :=
  let rest := threadId.data.drop 7
  if threadId.data.take 7 = "thread-".data ∧ rest ≠ [] ∧ rest.all (·.isDigit) then
    digitsToNat rest
  else 0

/-- `buildThreadId`. -/
def buildThreadId (threadNumber : Nat) : String :=
  "thread-" ++ padStart4 (Nat.repr threadNumber)

/-- The `[a-zA-Z0-9._-]+` identifier character class. -/
def isIdChar (c : Char) : Bool :=
  c.isAlpha || c.isDigit || c = '.' || c = '_' || c = '-'

/-- `^[a-zA-Z0-9._-]+$`. -/
def isValidId (s : String) : Bool :=
  s.data ≠ [] && s.data.all isIdChar

/-- `isLeaseExpired(lease)`: `Date.now() >= Date.parse(lease.expiresAt)`. -/
def isLeaseExpired (now : Nat) (lease : TaskLease) : Bool :=
  lease.expiresAt ≤ now

/-- JS `String.prototype.trim` (ASCII whitespace, which covers all identifiers
and titles handled by the store). -/
def jsTrim (s : String) : String :=
  String.mk (((s.data.dropWhile Char.isWhitespace).reverse.dropWhile Char.isWhitespace).reverse)

/-- JS `String.prototype.toLowerCase` (ASCII case mapping). -/
def jsToLower (s : String) : String :=
  String.mk (s.data.map Char.toLower)

/-- JS `[...new Set(list)]`: deduplicate preserving first occurrences. -/
def dedupFirst (l : List String) : List String :=
  l.foldl (fun acc x => if x ∈ acc then acc else acc ++ [x]) []

/-- `readTask` / `loadTaskOrThrow` lookup: the task file `tasks/<id>.json`. -/
def findTask (st : StoreState) (taskId : String) : Option TaskRecord :=
  st.tasks.find? (fun t => t.id = taskId)

/-- `writeTask`: atomically replace `tasks/<id>.json` (or create it). -/
def writeTask (st : StoreState) (task : TaskRecord) : StoreState :=
  if st.tasks.any (fun t => t.id = task.id) then
    { st with tasks := st.tasks.map (fun t => if t.id = task.id then task else t) }
  else
    { st with tasks := st.tasks ++ [task] }

/-- `appendAuditEvent` (`data` payload omitted; `evt-${randomUUID()}` modelled
by the fresh counter). -/
def appendAuditEvent (st : StoreState) (actor type : String)
    (refs : List (String × String)) (now : Nat) : StoreState :=
  { st with
    audit := st.audit ++ [{ id := "evt-" ++ Nat.repr st.uuid, actor, type, refs, ts := now }]
    uuid := st.uuid + 1 }

/-- `readInbox(agentId, _)` (the pure part: state found on disk or the initial
state). -/
def readInboxState (st : StoreState) (agentId : String) : InboxState :=
  match st.inboxes.find? (fun p => p.1 = agentId) with
  | some p => p.2
  | none => { nextCursor := 0, events := [] }

/-- `writeInbox`: atomically replace `inboxes/<agentId>.json`. -/
def writeInbox (st : StoreState) (agentId : String) (state : InboxState) : StoreState :=
  if st.inboxes.any (fun p => p.1 = agentId) then
    { st with inboxes := st.inboxes.map (fun p => if p.1 = agentId then (agentId, state) else p) }
  else
    { st with inboxes := st.inboxes ++ [(agentId, state)] }

/-- `listInboxAgents`: names of the `inboxes/*.json` files. -/
def listInboxAgents (st : StoreState) : List String :=
  (st.inboxes.map Prod.fst).filter (fun a => a ≠ "")

/-- `broadcastRecipients`: team agents with a non-empty id, then agents with an
existing inbox file, deduplicated. -/
def broadcastRecipients (st : StoreState) : List String :=
  let fromTeam :=
    match st.team with
    | some team => (team.agents.map TeamAgent.id).filter (fun a => a ≠ "")
    | none => []
  dedupFirst (fromTeam ++ listInboxAgents st)

/-- The payload handed to `appendInboxEvent`. -/
structure InboxEventInput where
  type : String
  taskId : Option String := none
  threadId : Option String := none
  actor : Option String := none
  summary : Option String := none
  content : Option String := none
deriving DecidableEq, Repr

/-- The loop body of `appendInboxEvent` for one recipient: validates the agent
id (throws `400 INVALID_AGENT_ID`), reads or creates the inbox, appends the
event at the next cursor and writes the file back. -/
def appendInboxOne (teamId : String) (event : InboxEventInput) (now : Nat)
    (st : StoreState) (rawAgentId : String) : OpResult Unit :=
  if isValidId rawAgentId then
    let state := readInboxState st rawAgentId
    let cursor := state.nextCursor + 1
    let inboxEvent : InboxEventRecord :=
      { id := "inbox-" ++ Nat.repr cursor, cursor, type := event.type, teamId,
        agentId := rawAgentId, taskId := event.taskId, threadId := event.threadId,
        actor := event.actor, summary := event.summary, content := event.content, ts := now }
    .ok () (writeInbox st rawAgentId { nextCursor := cursor, events := state.events ++ [inboxEvent] })
  else .error ⟨400, "INVALID_AGENT_ID"⟩ st

/-- `appendInboxEvent(recipients, event)`: trim, drop empties, deduplicate,
then append to each recipient's inbox in order (an invalid id aborts the loop,
keeping the writes already made). -/
def appendInboxEvent (teamId : String) (recipients : List String)
    (event : InboxEventInput) (now : Nat) (st : StoreState) : OpResult Unit :=
  let uniqueRecipients := dedupFirst ((recipients.map jsTrim).filter (fun a => a ≠ ""))
  go uniqueRecipients st
where
  go : List String → StoreState → OpResult Unit
    | [], st => .ok () st
    | a :: rest, st =>
      match appendInboxOne teamId event now st a with
      | .ok _ st' => go rest st'
      | .error e st' => .error e st'

/-! ## Store operation inputs -/

/-- `CreateTaskInput`. -/
structure CreateTaskInput where
  title : String
  description : Option String := none
  deps : Option (List String) := none
  resources : Option (List String) := none
deriving DecidableEq, Repr

/-- `StartThreadInput`. -/
structure StartThreadInput where
  title : Option String := none
  participants : Option (List String) := none
  taskId : Option String := none
  agentId : Option String := none
deriving DecidableEq, Repr

/-- `PostThreadMessageInput`. -/
structure PostThreadMessageInput where
  threadId : String
  agentId : String
  message : String
deriving DecidableEq, Repr

/-- `LinkThreadToTaskInput`. -/
structure LinkThreadToTaskInput where
  threadId : String
  taskId : String
deriving DecidableEq, Repr

/-- `ClaimTaskInput`. -/
structure ClaimTaskInput where
  taskId : String
  agentId : String
  ttlMs : Option Nat := none
deriving DecidableEq, Repr

/-- `RenewTaskInput`. -/
structure RenewTaskInput where
  taskId : String
  agentId : String
  epoch : Nat
  ttlMs : Option Nat := none
deriving DecidableEq, Repr

/-- `FinalizeTaskInput`. -/
structure FinalizeTaskInput where
  taskId : String
  agentId : String
  epoch : Nat
deriving DecidableEq, Repr

/-! ## Store operations -/

/-- `createTeam(team)`: no-op when a team file already exists. -/
def createTeam (cfg : StoreConfig) (now : Nat) (team : TeamRecord) (st : StoreState) :
    OpResult TeamRecord :=
  if team.teamId ≠ cfg.teamId then .error ⟨404, "TEAM_NOT_FOUND"⟩ st
  else
    match st.team with
    | some existing => .ok existing st
    | none =>
      let st1 := { st with team := some team }
      .ok team (appendAuditEvent st1 "teamd" "team_created" [("teamId", cfg.teamId)] now)

/-- `listTeams()`. -/
def listTeams (st : StoreState) : List TeamRecord :=
  match st.team with
  | some team => [team]
  | none => []

/-- `getTeam(teamId)`. -/
def getTeam (cfg : StoreConfig) (teamId : String) (st : StoreState) : OpResult TeamRecord :=
  if teamId ≠ cfg.teamId then .error ⟨404, "TEAM_NOT_FOUND"⟩ st
  else
    match st.team with
    | none => .error ⟨404, "TEAM_NOT_FOUND"⟩ st
    | some team => .ok team st

/-- `existingTasks.find(task => task.id === depId)?.status === "completed"`. -/
def depCompleted (st : StoreState) (depId : String) : Bool :=
  match findTask st depId with
  | some dep => dep.status = TaskStatus.completed
  | none => false

/-- `writeCreateTaskIdempotency` after `idempotency.entries[key] = entry`:
atomically replace (or append) the key's entry. -/
def writeIdemEntry (st : StoreState) (k : String) (e : IdemEntry) : StoreState :=
  if st.idempotency.any (fun p => p.1 = k) then
    { st with idempotency := st.idempotency.map (fun p => if p.1 = k then (k, e) else p) }
  else { st with idempotency := st.idempotency ++ [(k, e)] }

/-- The fresh-creation tail of `createTask` (after the idempotency lookup
found nothing to return): mints `task-NNNN`, computes the initial status from
the dependencies, persists the task, records the idempotency key when it is
truthy (JS `if (idempotencyKey)`: an empty key is never recorded), audits. -/
def createTaskNew (_cfg : StoreConfig) (now : Nat) (title description : String)
    (deps resources : List String) (idempotencyKey : Option String) (st : StoreState) :
    OpResult (TaskRecord × Bool) :=
  let nextTaskNumber := (st.tasks.foldl (fun m t => max m (parseTaskNumericId t.id)) 0) + 1
  let taskId := buildTaskId nextTaskNumber
  let areDepsComplete := deps.all (depCompleted st)
  let task : TaskRecord :=
    { id := taskId, title, description
      status := if deps.length > 0 && !areDepsComplete then .blocked else .pending
      owner := none, deps, resources, lease := none, epoch := 0
      timestamps := { createdAt := now, startedAt := none, completedAt := none, failedAt := none } }
  let st1 := writeTask st task
  let st2 :=
    match idempotencyKey with
    | some k => if k = "" then st1 else writeIdemEntry st1 k ⟨taskId, now⟩
    | none => st1
  .ok (task, true) (appendAuditEvent st2 "teamd" "task_created" [("taskId", taskId)] now)

/-- `createTask(teamId, input, idempotencyKey)`; the returned `Bool` is the
`created` flag.  The idempotency lookup is guarded by JS truthiness
(`if (idempotencyKey && ...)`), so an empty-string key is treated as absent. -/
def createTask (cfg : StoreConfig) (now : Nat) (teamId : String) (input : CreateTaskInput)
    (idempotencyKey : Option String) (st : StoreState) : OpResult (TaskRecord × Bool) :=
  if teamId ≠ cfg.teamId then .error ⟨404, "TEAM_NOT_FOUND"⟩ st
  else
    let title := jsTrim input.title
    if title = "" then .error ⟨400, "INVALID_TASK"⟩ st
    else
      let deps := dedupFirst (((input.deps.getD []).map jsTrim).filter (fun d => d ≠ ""))
      let resources :=
        dedupFirst (((input.resources.getD []).map normalizePathPrefix).filter (fun r => r ≠ ""))
      let description := jsTrim (input.description.getD "")
      match idempotencyKey with
      | some k =>
        if k = "" then createTaskNew cfg now title description deps resources idempotencyKey st
        else
          match (st.idempotency.find? (fun p => p.1 = k)).map Prod.snd with
          | some entry =>
            match findTask st entry.taskId with
            | some existingTask => .ok (existingTask, false) st
            | none => createTaskNew cfg now title description deps resources idempotencyKey st
          | none => createTaskNew cfg now title description deps resources idempotencyKey st
      | none => createTaskNew cfg now title description deps resources idempotencyKey st

/-- `listTasks(teamId)`: the task files sorted by id (`localeCompare` on
`task-NNNN` ids coincides with code-point order). -/
def listTasks (cfg : StoreConfig) (teamId : String) (st : StoreState) :
    OpResult (List TaskRecord) :=
  if teamId ≠ cfg.teamId then .error ⟨404, "TEAM_NOT_FOUND"⟩ st
  else .ok (st.tasks.insertionSort (fun a b => a.id ≤ b.id)) st

/-- `getTask(teamId, taskId)`. -/
def getTask (cfg : StoreConfig) (teamId taskId : String) (st : StoreState) :
    OpResult TaskRecord :=
  if teamId ≠ cfg.teamId then .error ⟨404, "TEAM_NOT_FOUND"⟩ st
  else
    match findTask st taskId with
    | none => .error ⟨404, "TASK_NOT_FOUND"⟩ st
    | some task => .ok task st

/-- The silent expired-lease reset at the top of `claimTask`. -/
def resetExpiredLease (now : Nat) (task : TaskRecord) : TaskRecord :=
  match task.lease with
  | some lease =>
    if task.status = TaskStatus.in_progress ∧ isLeaseExpired now lease then
      { task with status := .pending, owner := none, lease := none }
    else task
  | none => task

/-- `claimTask(teamId, input)`: silently resets an expired `in_progress`
lease to `pending`, then claims atomically (epoch + 1, fresh lease, owner,
`startedAt ??= now`). -/
def claimTask (cfg : StoreConfig) (now : Nat) (teamId : String) (input : ClaimTaskInput)
    (st : StoreState) : OpResult (TaskRecord × TaskLease) :=
  if teamId ≠ cfg.teamId then .error ⟨404, "TEAM_NOT_FOUND"⟩ st
  else
    match findTask st input.taskId with
    | none => .error ⟨404, "TASK_NOT_FOUND"⟩ st
    | some task0 =>
      let task1 := resetExpiredLease now task0
      if task1.status ≠ .pending then .error ⟨409, "TASK_NOT_CLAIMABLE"⟩ st
      else
        let ttlMs := input.ttlMs.getD cfg.defaultLeaseTtlMs
        let nextEpoch := task1.epoch + 1
        let lease : TaskLease := { holder := input.agentId, epoch := nextEpoch, expiresAt := now + ttlMs }
        let task2 :=
          { task1 with
            status := .in_progress, owner := some input.agentId, lease := some lease
            epoch := nextEpoch
            timestamps := { task1.timestamps with startedAt := some (task1.timestamps.startedAt.getD now) } }
        let st1 := appendAuditEvent (writeTask st task2) input.agentId "task_claimed"
          [("taskId", task2.id)] now
        match appendInboxEvent cfg.teamId (broadcastRecipients st1)
            { type := "task_claimed", taskId := some task2.id, actor := some input.agentId
              summary := some ("Task " ++ task2.id ++ " claimed by " ++ input.agentId) } now st1 with
        | .error e st2 => .error e st2
        | .ok _ st2 => .ok (task2, lease) st2

/-- `renewTask(teamId, input)`: pushes `expiresAt` forward after the four
fencing checks. -/
def renewTask (cfg : StoreConfig) (now : Nat) (teamId : String) (input : RenewTaskInput)
    (st : StoreState) : OpResult (TaskRecord × TaskLease) :=
  if teamId ≠ cfg.teamId then .error ⟨404, "TEAM_NOT_FOUND"⟩ st
  else
    match findTask st input.taskId with
    | none => .error ⟨404, "TASK_NOT_FOUND"⟩ st
    | some task =>
      match task.lease with
      | none => .error ⟨409, "TASK_NOT_IN_PROGRESS"⟩ st
      | some lease =>
        if task.status ≠ .in_progress then .error ⟨409, "TASK_NOT_IN_PROGRESS"⟩ st
        else if isLeaseExpired now lease then .error ⟨403, "LEASE_EXPIRED"⟩ st
        else if lease.holder ≠ input.agentId then .error ⟨403, "LEASE_HOLDER_MISMATCH"⟩ st
        else if lease.epoch ≠ input.epoch then .error ⟨409, "EPOCH_MISMATCH"⟩ st
        else
          let ttlMs := input.ttlMs.getD cfg.defaultLeaseTtlMs
          let newLease := { lease with expiresAt := now + ttlMs }
          let task2 := { task with lease := some newLease }
          let st1 := appendAuditEvent (writeTask st task2) input.agentId "task_renewed"
            [("taskId", task2.id)] now
          .ok (task2, newLease) st1

/-- The two terminal-timestamp assignments of `finalizeTask`. -/
def finalizeTimestamps (finalStatus : TaskStatus) (now : Nat) (ts0 : TaskTimestamps) :
    TaskTimestamps :=
  let ts1 := if finalStatus = TaskStatus.completed then { ts0 with completedAt := some now } else ts0
  if finalStatus = TaskStatus.failed then { ts1 with failedAt := some now } else ts1

/-- `finalizeTask(input, finalStatus)` (private helper of complete/fail):
fencing checks, then clears the lease, sets the terminal status and the
matching terminal timestamp, audits and fans out the inbox event. -/
def finalizeTask (cfg : StoreConfig) (now : Nat) (input : FinalizeTaskInput)
    (finalStatus : TaskStatus) (st : StoreState) : OpResult TaskRecord :=
  match findTask st input.taskId with
  | none => .error ⟨404, "TASK_NOT_FOUND"⟩ st
  | some task =>
    match task.lease with
    | none => .error ⟨409, "TASK_NOT_IN_PROGRESS"⟩ st
    | some lease =>
      if task.status ≠ .in_progress then .error ⟨409, "TASK_NOT_IN_PROGRESS"⟩ st
      else if isLeaseExpired now lease then .error ⟨403, "LEASE_EXPIRED"⟩ st
      else if lease.holder ≠ input.agentId then .error ⟨403, "LEASE_HOLDER_MISMATCH"⟩ st
      else if lease.epoch ≠ input.epoch then .error ⟨409, "EPOCH_MISMATCH"⟩ st
      else
        let task2 := { task with
                       status := finalStatus, lease := none
                       timestamps := finalizeTimestamps finalStatus now task.timestamps }
        let typeTag := if finalStatus = .completed then "task_completed" else "task_failed"
        let statusWord := if finalStatus = .completed then "completed" else "failed"
        let st1 := appendAuditEvent (writeTask st task2) input.agentId typeTag
          [("taskId", task.id)] now
        match appendInboxEvent cfg.teamId (broadcastRecipients st1)
            { type := typeTag, taskId := some task.id, actor := some input.agentId
              summary := some ("Task " ++ task.id ++ " " ++ statusWord ++ " by " ++ input.agentId) }
            now st1 with
        | .error e st2 => .error e st2
        | .ok _ st2 => .ok task2 st2

/-- `unlockDependents(completedTaskId, actor)`: scan the task snapshot and
flip to `pending` every `blocked` task that lists the completed task and whose
dependencies are now all completed. -/
def unlockDependents (completedTaskId actor : String) (now : Nat) (st : StoreState) :
    StoreState :=
  let snapshot := st.tasks
  let completedIds : List String :=
    (snapshot.filter (fun t => t.status = TaskStatus.completed)).map TaskRecord.id
  snapshot.foldl
    (fun (acc : StoreState) (t : TaskRecord) =>
      if t.status = TaskStatus.blocked ∧ completedTaskId ∈ t.deps ∧ ∀ d ∈ t.deps, d ∈ completedIds then
        appendAuditEvent (writeTask acc { t with status := .pending }) actor "task_unblocked"
          [("taskId", t.id)] now
      else acc)
    st

/-- `completeTask(teamId, input)`: finalize to `completed`, then unblock
dependents. -/
def completeTask (cfg : StoreConfig) (now : Nat) (teamId : String) (input : FinalizeTaskInput)
    (st : StoreState) : OpResult TaskRecord :=
  if teamId ≠ cfg.teamId then .error ⟨404, "TEAM_NOT_FOUND"⟩ st
  else
    match finalizeTask cfg now input .completed st with
    | .error e st' => .error e st'
    | .ok task st' => .ok task (unlockDependents task.id input.agentId now st')

/-- `failTask(teamId, input)`: finalize to `failed` (no unblocking). -/
def failTask (cfg : StoreConfig) (now : Nat) (teamId : String) (input : FinalizeTaskInput)
    (st : StoreState) : OpResult TaskRecord :=
  if teamId ≠ cfg.teamId then .error ⟨404, "TEAM_NOT_FOUND"⟩ st
  else
    match finalizeTask cfg now input .failed st with
    | .error e st' => .error e st'
    | .ok task st' => .ok task st'

/-- `startThread(teamId, input)`. -/
def startThread (cfg : StoreConfig) (now : Nat) (teamId : String) (input : StartThreadInput)
    (st : StoreState) : OpResult ThreadRecord :=
  if teamId ≠ cfg.teamId then .error ⟨404, "TEAM_NOT_FOUND"⟩ st
  else
    let titleTrim := jsTrim (input.title.getD "")
    let title := if titleTrim = "" then "Thread" else titleTrim
    let agentTrim := jsTrim (input.agentId.getD "")
    let participants0 := dedupFirst (((input.participants.getD []).map jsTrim).filter (fun a => a ≠ ""))
    let pushed := participants0 ++ (if agentTrim ≠ "" then [agentTrim] else [])
    let uniqueParticipants := dedupFirst pushed
    if ¬ (∀ a ∈ uniqueParticipants, isValidId a) then .error ⟨400, "INVALID_AGENT_ID"⟩ st
    else
      let nextThreadNumber := (st.threads.foldl (fun m th => max m (parseThreadNumericId th.id)) 0) + 1
      let threadId := buildThreadId nextThreadNumber
      let taskIdTrim := jsTrim (input.taskId.getD "")
      if taskIdTrim ≠ "" ∧ findTask st taskIdTrim = none then .error ⟨404, "TASK_NOT_FOUND"⟩ st
      else
        let thread : ThreadRecord :=
          { id := threadId, title, participants := uniqueParticipants
            taskId := if taskIdTrim ≠ "" then some taskIdTrim else none
            createdAt := now, updatedAt := now }
        let st1 := { st with threads := st.threads ++ [thread] }
        let actor := if agentTrim ≠ "" then agentTrim else "teamd"
        .ok thread (appendAuditEvent st1 actor "thread_started" [("threadId", threadId)] now)

/-- `postThreadMessage(teamId, input)`. -/
def postThreadMessage (cfg : StoreConfig) (now : Nat) (teamId : String)
    (input : PostThreadMessageInput) (st : StoreState) : OpResult ThreadMessageRecord :=
  if teamId ≠ cfg.teamId then .error ⟨404, "TEAM_NOT_FOUND"⟩ st
  else
    let author := jsTrim input.agentId
    if ¬ isValidId author then .error ⟨400, "INVALID_AGENT_ID"⟩ st
    else
      let body := jsTrim input.message
      if body = "" then .error ⟨400, "INVALID_THREAD_MESSAGE"⟩ st
      else
        match st.threads.find? (fun th => th.id = input.threadId) with
        | none => .error ⟨404, "THREAD_NOT_FOUND"⟩ st
        | some thread =>
          let message : ThreadMessageRecord :=
            { id := "msg-" ++ Nat.repr st.uuid, threadId := thread.id, fromAgent := author
              body, ts := now }
          let st0 := { st with uuid := st.uuid + 1 }
          let st1 :=
            if st0.threadFiles.any (fun p => p.1 = thread.id) then
              { st0 with threadFiles :=
                  st0.threadFiles.map (fun p => if p.1 = thread.id then (thread.id, p.2 ++ [message]) else p) }
            else { st0 with threadFiles := st0.threadFiles ++ [(thread.id, [message])] }
          let st2 :=
            { st1 with threads :=
                st1.threads.map (fun th => if th.id = thread.id then { th with updatedAt := now } else th) }
          let st3 := appendAuditEvent st2 author "thread_message" [("threadId", thread.id)] now
          let recipients := thread.participants.filter (fun p => p ≠ author)
          match appendInboxEvent cfg.teamId recipients
              { type := "thread_message", threadId := some thread.id, actor := some author
                summary := some (String.mk (body.data.take 120)), content := some body } now st3 with
          | .error e st4 => .error e st4
          | .ok _ st4 => .ok message st4

/-- `readThreadTail(teamId, threadId, limit)`. -/
def readThreadTail (cfg : StoreConfig) (teamId threadId : String) (limit : Nat)
    (st : StoreState) : OpResult (ThreadRecord × List ThreadMessageRecord) :=
  if teamId ≠ cfg.teamId then .error ⟨404, "TEAM_NOT_FOUND"⟩ st
  else
    match st.threads.find? (fun th => th.id = threadId) with
    | none => .error ⟨404, "THREAD_NOT_FOUND"⟩ st
    | some thread =>
      let records := ((st.threadFiles.find? (fun p => p.1 = thread.id)).map Prod.snd).getD []
      let normalizedLimit := if 0 < limit then min limit 200 else 20
      .ok (thread, records.drop (records.length - normalizedLimit)) st

/-- `searchThreads(teamId, query)`. -/
def searchThreads (cfg : StoreConfig) (teamId query : String) (st : StoreState) :
    OpResult (List ThreadRecord) :=
  if teamId ≠ cfg.teamId then .error ⟨404, "TEAM_NOT_FOUND"⟩ st
  else
    let needle := jsToLower (jsTrim query)
    if needle = "" then .ok st.threads st
    else
      .ok (st.threads.filter (fun thread =>
        strContains (jsToLower thread.title) needle ||
        (match thread.taskId with
         | some tid => strContains (jsToLower tid) needle
         | none => false) ||
        thread.participants.any (fun p => strContains (jsToLower p) needle))) st

/-- `linkThreadToTask(teamId, input)`. -/
def linkThreadToTask (cfg : StoreConfig) (now : Nat) (teamId : String)
    (input : LinkThreadToTaskInput) (st : StoreState) : OpResult ThreadRecord :=
  if teamId ≠ cfg.teamId then .error ⟨404, "TEAM_NOT_FOUND"⟩ st
  else
    match findTask st input.taskId with
    | none => .error ⟨404, "TASK_NOT_FOUND"⟩ st
    | some _ =>
      match st.threads.find? (fun th => th.id = input.threadId) with
      | none => .error ⟨404, "THREAD_NOT_FOUND"⟩ st
      | some thread =>
        let updated := { thread with taskId := some input.taskId, updatedAt := now }
        let st1 :=
          { st with threads := st.threads.map (fun th => if th.id = thread.id then updated else th) }
        let st2 := appendAuditEvent st1 "teamd" "thread_linked_task"
          [("threadId", thread.id), ("taskId", input.taskId)] now
        .ok updated st2

/-- Digits-prefix part of JS `Number.parseInt(s, 10)`. -/
def parseIntDigits (cs : List Char) : Option Nat :=
  let ds := cs.takeWhile Char.isDigit
  if ds = [] then none else some (digitsToNat ds)

/-- JS `Number.parseInt(s, 10)` (leading whitespace skipped, optional sign,
longest digit prefix; `none` models `NaN`). -/
def jsParseInt (s : String) : Option Int :=
  match (jsTrim s).data with
  | '-' :: rest => (parseIntDigits rest).map (fun n => -(n : Int))
  | '+' :: rest => (parseIntDigits rest).map (fun n => (n : Int))
  | cs => (parseIntDigits cs).map (fun n => (n : Int))

/-- `fetchInbox(teamId, agentId, since)`; the returned `String` is
`nextSince`. -/
def fetchInbox (cfg : StoreConfig) (teamId agentId : String) (since : Option String)
    (st : StoreState) : OpResult (List InboxEventRecord × String) :=
  if teamId ≠ cfg.teamId then .error ⟨404, "TEAM_NOT_FOUND"⟩ st
  else
    let normalizedAgentId := jsTrim agentId
    if ¬ isValidId normalizedAgentId then .error ⟨400, "INVALID_AGENT_ID"⟩ st
    else
      let state := readInboxState st normalizedAgentId
      let st1 :=
        if st.inboxes.any (fun p => p.1 = normalizedAgentId) then st
        else writeInbox st normalizedAgentId state
      let sinceCursor := jsParseInt (since.getD "0")
      let cursorFloor : Nat :=
        match sinceCursor with
        | some n => if 0 < n then n.toNat else 0
        | none => 0
      let events := state.events.filter (fun e => cursorFloor < e.cursor)
      let nextSince := Nat.repr
        (match events.getLast? with
         | some e => e.cursor
         | none => max cursorFloor state.nextCursor)
      .ok (events, nextSince) st1

/-- The per-task test of `canWrite`'s scan loop. -/
def taskAllowsWrite (now : Nat) (agentId safePath : String) (task : TaskRecord) : Bool :=
  match task.lease with
  | none => false
  | some lease =>
    decide (task.status = TaskStatus.in_progress) && decide (lease.holder = agentId) &&
      decide (now < lease.expiresAt) && task.resources.any (fun r => resourceMatchesPath r safePath)

/-- `canWrite(teamId, agentId, path)`: normalize, `safeJoin` against the team
directory (any failure is reported as `path_traversal_denied`), then scan for
an active lease covering the path. -/
def canWrite (cfg : StoreConfig) (fs : Fs) (now : Nat) (teamId agentId requestedPath : String)
    (st : StoreState) : OpResult (Bool × String) :=
  if teamId ≠ cfg.teamId then .error ⟨404, "TEAM_NOT_FOUND"⟩ st
  else
    let safePath := normalizePathPrefix requestedPath
    if safePath = "" then .ok (false, "invalid_path") st
    else
      match safeJoin fs cfg.teamDir safePath with
      | .error _ => .ok (false, "path_traversal_denied") st
      | .ok _ =>
        if st.tasks.any (taskAllowsWrite now agentId safePath) then
          .ok (true, "lease_active_for_resource") st
        else .ok (false, "no_active_lease_for_path") st

/-! ## Guard client discovery (`src/extension/teamd-client.ts`) -/

/-- The environment snapshot read by `createTeamdClient` (undefined variables
are `none`).  `PI_TEAM_WORKSPACE_ROOT` and `USER` are part of the snapshot the
repository's tests exercise; the `discover` under test reads neither. -/
structure ClientEnv where
  PI_TEAMD_URL : Option String := none
  PI_TEAMD_TOKEN : Option String := none
  PI_TEAM_ID : Option String := none
  PI_AGENT_ID : Option String := none
  PI_TEAMD_TOKEN_FILE : Option String := none
  PI_TEAM_WORKSPACE_ROOT : Option String := none
  USER : Option String := none
deriving DecidableEq, Repr

/-- `asString(value)`: trim a string, anything else (including `undefined`)
becomes `""`. -/
def asString (value : Option String) : String :=
  jsTrim (value.getD "")

/-- `TokenFileData` as produced by `parseTokenFile`. -/
structure TokenFileData where
  token : Option String := none
  url : Option String := none
deriving DecidableEq, Repr

/-- `normalizeUrl(input)`: strip trailing slashes. -/
def normalizeUrl (input : String) : String :=
  String.mk (input.data.reverse.dropWhile (fun c => c = '/') |>.reverse)

/-- `DiscoveryData`. -/
structure DiscoveryData where
  teamId : String
  agentId : String
  baseUrl : String
  token : String
deriving DecidableEq, Repr

/-- The completeness check and packaging at the end of `discover`. -/
def discoverFinish (url token teamId agentId : String) (requireAgent : Bool) :
    Option DiscoveryData :=
  if url = "" ∨ token = "" ∨ teamId = "" then none
  else if requireAgent ∧ agentId = "" then none
  else some { baseUrl := normalizeUrl url, token, teamId, agentId }

/-- `discover(requireAgent)` of `createTeamdClient`: environment values,
optionally backfilled from the token file named by `PI_TEAMD_TOKEN_FILE`
(`readTokenFile` models `parseTokenFile` over `readFileImpl`; `none` models a
thrown read error, which makes discovery return `null`).  Nothing else is
consulted. -/
def discover (env : ClientEnv) (readTokenFile : String → Option TokenFileData)
    (requireAgent : Bool) : Option DiscoveryData :=
  let url := asString env.PI_TEAMD_URL
  let token := asString env.PI_TEAMD_TOKEN
  let teamId := asString env.PI_TEAM_ID
  let agentId := asString env.PI_AGENT_ID
  let tokenFile := asString env.PI_TEAMD_TOKEN_FILE
  if (token = "" ∨ url = "") ∧ tokenFile ≠ "" then
    match readTokenFile tokenFile with
    | none => none
    | some fromFile =>
      let token1 := if token = "" then fromFile.token.getD "" else token
      let url1 := if url = "" then fromFile.url.getD "" else url
      discoverFinish url1 token1 teamId agentId requireAgent
  else discoverFinish url token teamId agentId requireAgent

/-! ## Operation sequences over the store -/

/-- The state a freshly initialized store starts from: empty directories and
the default team file written by `initialize` when none exists. -/
def initialState (cfg : StoreConfig) : StoreState :=
  { team := some { teamId := cfg.teamId, agents := [] }
    tasks := [], threads := [], threadFiles := [], inboxes := []
    idempotency := [], audit := [], uuid := 0 }

/-- One task-mutating store operation together with the instant it runs at
(the operations named by the task-invariant claim). -/
inductive StoreOp where
  | createTask (now : Nat) (input : CreateTaskInput) (idempotencyKey : Option String)
  | claimTask (now : Nat) (input : ClaimTaskInput)
  | renewTask (now : Nat) (input : RenewTaskInput)
  | completeTask (now : Nat) (input : FinalizeTaskInput)
  | failTask (now : Nat) (input : FinalizeTaskInput)
  | unlockDependents (now : Nat) (completedTaskId actor : String)

/-- The on-disk state after running one operation (errors keep the writes
made before the throw, exactly as the filesystem does). -/
def applyOp (cfg : StoreConfig) (st : StoreState) : StoreOp → StoreState
  | .createTask now input key => (createTask cfg now cfg.teamId input key st).state
  | .claimTask now input => (claimTask cfg now cfg.teamId input st).state
  | .renewTask now input => (renewTask cfg now cfg.teamId input st).state
  | .completeTask now input => (completeTask cfg now cfg.teamId input st).state
  | .failTask now input => (failTask cfg now cfg.teamId input st).state
  | .unlockDependents now tid actor => unlockDependents tid actor now st

/-- The state after a whole operation sequence. -/
def applyOps (cfg : StoreConfig) (st : StoreState) (ops : List StoreOp) : StoreState :=
  ops.foldl (applyOp cfg) st

/-- The task-record invariant of the data model: `lease` is non-null iff the
status is `in_progress`, and a non-null lease agrees with `owner` and
`epoch`. -/
def TaskInv (t : TaskRecord) : Prop :=
  (t.lease ≠ none ↔ t.status = TaskStatus.in_progress) ∧
    ∀ l, t.lease = some l → t.owner = some l.holder ∧ t.epoch = l.epoch

/-- All task files satisfy `TaskInv`. -/
def StateInv (st : StoreState) : Prop :=
  ∀ t ∈ st.tasks, TaskInv t

/-! ## General lemmas about the store helpers -/

theorem findTask_mem {st : StoreState} {taskId : String} {t : TaskRecord}
    (h : findTask st taskId = some t) : t ∈ st.tasks :=
  List.mem_of_find?_eq_some h

theorem findTask_id {st : StoreState} {taskId : String} {t : TaskRecord}
    (h : findTask st taskId = some t) : t.id = taskId := by
  have := List.find?_some h
  exact of_decide_eq_true this

@[simp] theorem tasks_appendAuditEvent (st : StoreState) (a b : String)
    (refs : List (String × String)) (n : Nat) :
    (appendAuditEvent st a b refs n).tasks = st.tasks := rfl

@[simp] theorem tasks_writeInbox (st : StoreState) (agentId : String) (s : InboxState) :
    (writeInbox st agentId s).tasks = st.tasks := by
  unfold writeInbox; split <;> rfl

theorem tasks_appendInboxOne (teamId : String) (event : InboxEventInput) (now : Nat)
    (st : StoreState) (a : String) :
    (appendInboxOne teamId event now st a).state.tasks = st.tasks := by
  unfold appendInboxOne
  split
  · simp [OpResult.state]
  · rfl

theorem tasks_appendInboxEvent_go (teamId : String) (event : InboxEventInput) (now : Nat) :
    ∀ (rs : List String) (st : StoreState),
      (appendInboxEvent.go teamId event now rs st).state.tasks = st.tasks := by
  intro rs
  induction rs with
  | nil => intro st; rfl
  | cons a rest ih =>
    intro st
    unfold appendInboxEvent.go
    rcases h : appendInboxOne teamId event now st a with _ | _
    case ok v st' =>
      have h1 : st'.tasks = st.tasks := by
        have := tasks_appendInboxOne teamId event now st a
        rw [h] at this; exact this
      simp only [ih st', h1]
    case error e st' =>
      have h1 : st'.tasks = st.tasks := by
        have := tasks_appendInboxOne teamId event now st a
        rw [h] at this; exact this
      simpa [OpResult.state] using h1

theorem tasks_appendInboxEvent (teamId : String) (rs : List String) (event : InboxEventInput)
    (now : Nat) (st : StoreState) :
    (appendInboxEvent teamId rs event now st).state.tasks = st.tasks := by
  unfold appendInboxEvent
  exact tasks_appendInboxEvent_go teamId event now _ st

theorem tasks_appendInboxEvent_ok {teamId : String} {rs : List String}
    {event : InboxEventInput} {now : Nat} {st : StoreState} {v : Unit} {stx : StoreState}
    (heq : appendInboxEvent teamId rs event now st = .ok v stx) : stx.tasks = st.tasks := by
  have h := tasks_appendInboxEvent teamId rs event now st
  rw [heq] at h
  simpa [OpResult.state] using h

theorem writeTask_mem {st : StoreState} {u t : TaskRecord}
    (h : t ∈ (writeTask st u).tasks) : t = u ∨ t ∈ st.tasks := by
  unfold writeTask at h
  split at h
  · have h' : t ∈ st.tasks.map (fun v => if v.id = u.id then u else v) := h
    simp only [List.mem_map] at h'
    obtain ⟨v, hv, hvt⟩ := h'
    by_cases hid : v.id = u.id
    · rw [if_pos hid] at hvt
      exact Or.inl hvt.symm
    · rw [if_neg hid] at hvt
      exact Or.inr (hvt ▸ hv)
  · have h' : t ∈ st.tasks ++ [u] := h
    rcases List.mem_append.mp h' with h'' | h''
    · exact Or.inr h''
    · exact Or.inl (List.mem_singleton.mp h'')

/-! ## C9: guard-client discovery -/

/-- **C9** (code bug).  The claim (with the spec and the repository's own test
`tests/teamd-client.test.ts` "auto-discovers latest runtime and generates agent
id") requires discovery, when the environment is incomplete, to scan the
workspace root for `*/runtime.json` by modification time and to synthesize the
agent id `<user>-auto`.  The shipped `discover` consults only the five
`PI_TEAMD_*`/`PI_TEAM_ID`/`PI_AGENT_ID` variables and the token file: with the
test's environment (`PI_TEAM_WORKSPACE_ROOT` and `USER` set, nothing else) it
returns `none` for every token-file reader and both `requireAgent` modes, so
the client denies with `missing_teamd_discovery` instead of discovering the
newest runtime descriptor. -/
theorem claim_c9_discover_ignores_workspace_scan :
    ∀ (readTokenFile : String → Option TokenFileData) (requireAgent : Bool),
      discover
        { PI_TEAM_WORKSPACE_ROOT := some "/home/tester/.pi/teams", USER := some "tester" }
        readTokenFile requireAgent = none := by
  intro readTokenFile requireAgent
  rfl

/-! ## C10: single-team scoping -/

/-- **C10**.  Every public store operation that takes a team id — team, task,
thread, inbox and can-write operations alike — rejects a team id different
from the one the store was constructed with, returning `404 TEAM_NOT_FOUND`
with the state untouched, regardless of what records exist. -/
theorem claim_c10_wrong_team_rejected
    (cfg : StoreConfig) (st : StoreState) (teamId : String) (h : teamId ≠ cfg.teamId)
    (now limit : Nat) (agents : List TeamAgent) (agentId query threadId taskId path : String)
    (inC : CreateTaskInput) (key : Option String) (inCl : ClaimTaskInput)
    (inR : RenewTaskInput) (inF : FinalizeTaskInput) (inS : StartThreadInput)
    (inP : PostThreadMessageInput) (inL : LinkThreadToTaskInput) (since : Option String)
    (fs : Fs) :
    createTeam cfg now { teamId := teamId, agents := agents } st
        = .error ⟨404, "TEAM_NOT_FOUND"⟩ st ∧
    getTeam cfg teamId st = .error ⟨404, "TEAM_NOT_FOUND"⟩ st ∧
    createTask cfg now teamId inC key st = .error ⟨404, "TEAM_NOT_FOUND"⟩ st ∧
    listTasks cfg teamId st = .error ⟨404, "TEAM_NOT_FOUND"⟩ st ∧
    getTask cfg teamId taskId st = .error ⟨404, "TEAM_NOT_FOUND"⟩ st ∧
    claimTask cfg now teamId inCl st = .error ⟨404, "TEAM_NOT_FOUND"⟩ st ∧
    renewTask cfg now teamId inR st = .error ⟨404, "TEAM_NOT_FOUND"⟩ st ∧
    completeTask cfg now teamId inF st = .error ⟨404, "TEAM_NOT_FOUND"⟩ st ∧
    failTask cfg now teamId inF st = .error ⟨404, "TEAM_NOT_FOUND"⟩ st ∧
    startThread cfg now teamId inS st = .error ⟨404, "TEAM_NOT_FOUND"⟩ st ∧
    postThreadMessage cfg now teamId inP st = .error ⟨404, "TEAM_NOT_FOUND"⟩ st ∧
    readThreadTail cfg teamId threadId limit st = .error ⟨404, "TEAM_NOT_FOUND"⟩ st ∧
    searchThreads cfg teamId query st = .error ⟨404, "TEAM_NOT_FOUND"⟩ st ∧
    linkThreadToTask cfg now teamId inL st = .error ⟨404, "TEAM_NOT_FOUND"⟩ st ∧
    fetchInbox cfg teamId agentId since st = .error ⟨404, "TEAM_NOT_FOUND"⟩ st ∧
    canWrite cfg fs now teamId agentId path st = .error ⟨404, "TEAM_NOT_FOUND"⟩ st := by
  refine ⟨?_, ?_, ?_, ?_, ?_, ?_, ?_, ?_, ?_, ?_, ?_, ?_, ?_, ?_, ?_, ?_⟩ <;>
    simp [createTeam, getTeam, createTask, listTasks, getTask, claimTask, renewTask,
      completeTask, failTask, startThread, postThreadMessage, readThreadTail, searchThreads,
      linkThreadToTask, fetchInbox, canWrite, h]

/-- The concrete store configuration used by witnesses. -/
def cfgA : StoreConfig :=
  { workspaceRoot := "/ws", teamId := "alpha", defaultLeaseTtlMs := 300000,
    teamDir := "/ws/alpha" }

/-- A trivial filesystem: the root realpath is itself and nothing exists. -/
def fsEmpty : Fs :=
  { realpath := fun r => r, lookup := fun _ => FsEntry.missing }

/-- Witness for C10 at concrete inputs. -/
theorem claim_c10_wrong_team_rejected_witness :
    getTask cfgA "beta" "task-0001" (initialState cfgA)
      = .error ⟨404, "TEAM_NOT_FOUND"⟩ (initialState cfgA) :=
  (claim_c10_wrong_team_rejected cfgA (initialState cfgA)
    "beta" (by decide) 0 0 [] "a" "q" "thread-0001" "task-0001" "p"
    { title := "t" } none { taskId := "task-0001", agentId := "a" }
    { taskId := "task-0001", agentId := "a", epoch := 1 }
    { taskId := "task-0001", agentId := "a", epoch := 1 }
    { title := none }
    { threadId := "thread-0001", agentId := "a", message := "m" }
    { threadId := "thread-0001", taskId := "task-0001" } none
    fsEmpty).2.2.2.2.1

/-! ## C3: finalize fencing -/

theorem finalizeTask_ok_inv {cfg : StoreConfig} {now : Nat} {input : FinalizeTaskInput}
    {final : TaskStatus} {st : StoreState} {t r : TaskRecord} {st' : StoreState}
    (hfind : findTask st input.taskId = some t)
    (h : finalizeTask cfg now input final st = .ok r st') :
    (t.status = TaskStatus.in_progress ∧
      ∃ l, t.lease = some l ∧ now < l.expiresAt ∧ l.holder = input.agentId ∧
        l.epoch = input.epoch) ∧
    r = { t with
          status := final
          lease := none
          timestamps := finalizeTimestamps final now t.timestamps } ∧
    st'.tasks = (writeTask st r).tasks := by
  unfold finalizeTask at h
  simp only [hfind] at h
  split at h
  · exact OpResult.noConfusion h
  case _ lease hl =>
    split at h
    · exact OpResult.noConfusion h
    case _ hstat =>
      split at h
      · exact OpResult.noConfusion h
      case _ hexp =>
        split at h
        · exact OpResult.noConfusion h
        case _ hhold =>
          split at h
          · exact OpResult.noConfusion h
          case _ hepoch =>
            split at h
            · exact OpResult.noConfusion h
            case _ v st2 heq =>
              obtain ⟨hr, hs⟩ := OpResult.ok.inj h
              refine ⟨⟨not_not.mp hstat, lease, hl, ?_, not_not.mp hhold, not_not.mp hepoch⟩,
                hr.symm, ?_⟩
              · simpa [isLeaseExpired] using hexp
              · have h2 := tasks_appendInboxEvent_ok heq
                rw [← hs, h2, tasks_appendAuditEvent, ← hr]

theorem finalizeTask_err_not_in_progress {cfg : StoreConfig} {now : Nat}
    {input : FinalizeTaskInput} {final : TaskStatus} {st : StoreState} {t : TaskRecord}
    (hfind : findTask st input.taskId = some t)
    (h : t.status ≠ TaskStatus.in_progress ∨ t.lease = none) :
    finalizeTask cfg now input final st = .error ⟨409, "TASK_NOT_IN_PROGRESS"⟩ st := by
  unfold finalizeTask
  simp only [hfind]
  rcases hl : t.lease with _ | lease
  · simp only [hl]
  · rcases h with h | h
    · simp only [hl]
      simp [h]
    · rw [hl] at h; exact Option.noConfusion h

theorem finalizeTask_err_expired {cfg : StoreConfig} {now : Nat}
    {input : FinalizeTaskInput} {final : TaskStatus} {st : StoreState} {t : TaskRecord}
    {l : TaskLease} (hfind : findTask st input.taskId = some t)
    (hl : t.lease = some l) (hstat : t.status = TaskStatus.in_progress)
    (hexp : l.expiresAt ≤ now) :
    finalizeTask cfg now input final st = .error ⟨403, "LEASE_EXPIRED"⟩ st := by
  unfold finalizeTask
  simp only [hfind, hl]
  simp [hstat, isLeaseExpired, hexp]

theorem finalizeTask_err_holder {cfg : StoreConfig} {now : Nat}
    {input : FinalizeTaskInput} {final : TaskStatus} {st : StoreState} {t : TaskRecord}
    {l : TaskLease} (hfind : findTask st input.taskId = some t)
    (hl : t.lease = some l) (hstat : t.status = TaskStatus.in_progress)
    (hexp : now < l.expiresAt) (hhold : l.holder ≠ input.agentId) :
    finalizeTask cfg now input final st = .error ⟨403, "LEASE_HOLDER_MISMATCH"⟩ st := by
  unfold finalizeTask
  simp only [hfind, hl]
  simp [hstat, isLeaseExpired, Nat.not_le.mpr hexp, hhold]

theorem finalizeTask_err_epoch {cfg : StoreConfig} {now : Nat}
    {input : FinalizeTaskInput} {final : TaskStatus} {st : StoreState} {t : TaskRecord}
    {l : TaskLease} (hfind : findTask st input.taskId = some t)
    (hl : t.lease = some l) (hstat : t.status = TaskStatus.in_progress)
    (hexp : now < l.expiresAt) (hhold : l.holder = input.agentId)
    (hepoch : l.epoch ≠ input.epoch) :
    finalizeTask cfg now input final st = .error ⟨409, "EPOCH_MISMATCH"⟩ st := by
  unfold finalizeTask
  simp only [hfind, hl]
  simp [hstat, isLeaseExpired, Nat.not_le.mpr hexp, hhold, hepoch]

/-- Lift a `finalizeTask` error to `completeTask`. -/
theorem completeTask_of_finalize_err {cfg : StoreConfig} {now : Nat}
    {input : FinalizeTaskInput} {st : StoreState} {e : TeamdStoreError}
    (h : finalizeTask cfg now input .completed st = .error e st) :
    completeTask cfg now cfg.teamId input st = .error e st := by
  simp [completeTask, h]

/-- Lift a `finalizeTask` error to `failTask`. -/
theorem failTask_of_finalize_err {cfg : StoreConfig} {now : Nat}
    {input : FinalizeTaskInput} {st : StoreState} {e : TeamdStoreError}
    (h : finalizeTask cfg now input .failed st = .error e st) :
    failTask cfg now cfg.teamId input st = .error e st := by
  simp [failTask, h]

/-- **C3**.  `completeTask` and `failTask` succeed only when the task is
`in_progress` with a non-null, non-expired lease whose holder is the caller
and whose epoch matches the supplied epoch; on success the lease is cleared
and the matching terminal timestamp (`completedAt` resp. `failedAt`) is set;
otherwise the error is `409 TASK_NOT_IN_PROGRESS` (not in progress or no
lease), `403 LEASE_EXPIRED` (even when holder and epoch match),
`403 LEASE_HOLDER_MISMATCH`, or `409 EPOCH_MISMATCH` (even when the agent id
matches), in that order of precedence. -/
theorem claim_c3_finalize_fencing
    (cfg : StoreConfig) (now : Nat) (input : FinalizeTaskInput) (st : StoreState)
    (t : TaskRecord) (hfind : findTask st input.taskId = some t) :
    (∀ r st', completeTask cfg now cfg.teamId input st = .ok r st' →
      (t.status = TaskStatus.in_progress ∧
        ∃ l, t.lease = some l ∧ now < l.expiresAt ∧ l.holder = input.agentId ∧
          l.epoch = input.epoch) ∧
      r = { t with
            status := .completed
            lease := none
            timestamps := { t.timestamps with completedAt := some now } }) ∧
    (∀ r st', failTask cfg now cfg.teamId input st = .ok r st' →
      (t.status = TaskStatus.in_progress ∧
        ∃ l, t.lease = some l ∧ now < l.expiresAt ∧ l.holder = input.agentId ∧
          l.epoch = input.epoch) ∧
      r = { t with
            status := .failed
            lease := none
            timestamps := { t.timestamps with failedAt := some now } }) ∧
    ((t.status ≠ TaskStatus.in_progress ∨ t.lease = none) →
      completeTask cfg now cfg.teamId input st = .error ⟨409, "TASK_NOT_IN_PROGRESS"⟩ st ∧
      failTask cfg now cfg.teamId input st = .error ⟨409, "TASK_NOT_IN_PROGRESS"⟩ st) ∧
    (∀ l, t.lease = some l → t.status = TaskStatus.in_progress → l.expiresAt ≤ now →
      completeTask cfg now cfg.teamId input st = .error ⟨403, "LEASE_EXPIRED"⟩ st ∧
      failTask cfg now cfg.teamId input st = .error ⟨403, "LEASE_EXPIRED"⟩ st) ∧
    (∀ l, t.lease = some l → t.status = TaskStatus.in_progress → now < l.expiresAt →
      l.holder ≠ input.agentId →
      completeTask cfg now cfg.teamId input st = .error ⟨403, "LEASE_HOLDER_MISMATCH"⟩ st ∧
      failTask cfg now cfg.teamId input st = .error ⟨403, "LEASE_HOLDER_MISMATCH"⟩ st) ∧
    (∀ l, t.lease = some l → t.status = TaskStatus.in_progress → now < l.expiresAt →
      l.holder = input.agentId → l.epoch ≠ input.epoch →
      completeTask cfg now cfg.teamId input st = .error ⟨409, "EPOCH_MISMATCH"⟩ st ∧
      failTask cfg now cfg.teamId input st = .error ⟨409, "EPOCH_MISMATCH"⟩ st) := by
  refine ⟨?_, ?_, ?_, ?_, ?_, ?_⟩
  · intro r st' h
    unfold completeTask at h
    rw [if_neg (by simp)] at h
    rcases hfin : finalizeTask cfg now input .completed st with _ | _
    case ok v s2 =>
      rw [hfin] at h
      obtain ⟨hv, _⟩ := OpResult.ok.inj h
      obtain ⟨hcond, hshape, _⟩ := finalizeTask_ok_inv hfind hfin
      exact ⟨hcond, hv ▸ hshape⟩
    case error e s2 =>
      rw [hfin] at h; exact OpResult.noConfusion h
  · intro r st' h
    unfold failTask at h
    rw [if_neg (by simp)] at h
    rcases hfin : finalizeTask cfg now input .failed st with _ | _
    case ok v s2 =>
      rw [hfin] at h
      obtain ⟨hv, _⟩ := OpResult.ok.inj h
      obtain ⟨hcond, hshape, _⟩ := finalizeTask_ok_inv hfind hfin
      exact ⟨hcond, hv ▸ hshape⟩
    case error e s2 =>
      rw [hfin] at h; exact OpResult.noConfusion h
  · intro h
    exact ⟨completeTask_of_finalize_err (finalizeTask_err_not_in_progress hfind h),
      failTask_of_finalize_err (finalizeTask_err_not_in_progress hfind h)⟩
  · intro l hl hstat hexp
    exact ⟨completeTask_of_finalize_err (finalizeTask_err_expired hfind hl hstat hexp),
      failTask_of_finalize_err (finalizeTask_err_expired hfind hl hstat hexp)⟩
  · intro l hl hstat hexp hhold
    exact ⟨completeTask_of_finalize_err (finalizeTask_err_holder hfind hl hstat hexp hhold),
      failTask_of_finalize_err (finalizeTask_err_holder hfind hl hstat hexp hhold)⟩
  · intro l hl hstat hexp hhold hepoch
    exact ⟨completeTask_of_finalize_err (finalizeTask_err_epoch hfind hl hstat hexp hhold hepoch),
      failTask_of_finalize_err (finalizeTask_err_epoch hfind hl hstat hexp hhold hepoch)⟩

/-- A concrete `in_progress` task holding a live lease (epoch 1, expires at
5000), used by witnesses. -/
def taskC3 : TaskRecord :=
  { id := "task-0001", title := "T", description := ""
    status := .in_progress, owner := some "worker-a", deps := [], resources := ["src"]
    lease := some { holder := "worker-a", epoch := 1, expiresAt := 5000 }, epoch := 1
    timestamps := { createdAt := 0, startedAt := some 0, completedAt := none, failedAt := none } }

/-- A store state holding exactly `taskC3`. -/
def stC3 : StoreState :=
  { initialState cfgA with tasks := [taskC3] }

/-- Witness for C3: a complete issued with a stale epoch (2 instead of 1) at a
time inside the lease is rejected `409 EPOCH_MISMATCH` even though the agent
matches. -/
theorem claim_c3_finalize_fencing_witness :
    completeTask cfgA 1000 cfgA.teamId
        { taskId := "task-0001", agentId := "worker-a", epoch := 2 } stC3
      = .error ⟨409, "EPOCH_MISMATCH"⟩ stC3 :=
  ((claim_c3_finalize_fencing cfgA 1000
      { taskId := "task-0001", agentId := "worker-a", epoch := 2 } stC3 taskC3
      (by decide)).2.2.2.2.2
    { holder := "worker-a", epoch := 1, expiresAt := 5000 }
    (by decide) (by decide) (by decide) (by decide) (by decide)).1

/-! ## C2: claim semantics -/

/-- The reset either does nothing or flips the task to a bare `pending`. -/
theorem resetExpiredLease_cases (now : Nat) (t : TaskRecord) :
    resetExpiredLease now t = t ∨
      resetExpiredLease now t = { t with status := .pending, owner := none, lease := none } := by
  unfold resetExpiredLease
  rcases h : t.lease with _ | lease <;> simp only [h]
  · exact Or.inl trivial
  · split
    · exact Or.inr rfl
    · exact Or.inl rfl

theorem resetExpiredLease_of_expired {now : Nat} {t : TaskRecord} {l : TaskLease}
    (hl : t.lease = some l) (hstat : t.status = TaskStatus.in_progress)
    (hexp : isLeaseExpired now l = true) :
    resetExpiredLease now t = { t with status := .pending, owner := none, lease := none } := by
  unfold resetExpiredLease
  rw [hl]
  simp [hstat, hexp]

theorem resetExpiredLease_of_pending {now : Nat} {t : TaskRecord}
    (h : t.status = TaskStatus.pending) : resetExpiredLease now t = t := by
  unfold resetExpiredLease
  rcases t.lease with _ | lease
  · rfl
  · simp [h]

@[simp] theorem writeTask_team (st : StoreState) (u : TaskRecord) :
    (writeTask st u).team = st.team := by
  unfold writeTask; split <;> rfl

@[simp] theorem writeTask_inboxes (st : StoreState) (u : TaskRecord) :
    (writeTask st u).inboxes = st.inboxes := by
  unfold writeTask; split <;> rfl

@[simp] theorem broadcastRecipients_writeTask (st : StoreState) (u : TaskRecord) :
    broadcastRecipients (writeTask st u) = broadcastRecipients st := by
  unfold broadcastRecipients listInboxAgents
  rw [writeTask_team, writeTask_inboxes]

@[simp] theorem broadcastRecipients_appendAuditEvent (st : StoreState) (a b : String)
    (refs : List (String × String)) (n : Nat) :
    broadcastRecipients (appendAuditEvent st a b refs n) = broadcastRecipients st := rfl

theorem appendInboxEvent_go_ok (teamId : String) (event : InboxEventInput) (now : Nat) :
    ∀ (l : List String) (st : StoreState), (∀ a ∈ l, isValidId a = true) →
      ∃ st', appendInboxEvent.go teamId event now l st = .ok () st' := by
  intro l
  induction l with
  | nil => intro st _; exact ⟨st, rfl⟩
  | cons a rest ih =>
    intro st hv
    have ha := hv a (List.mem_cons_self a rest)
    unfold appendInboxEvent.go appendInboxOne
    rw [if_pos ha]
    exact ih _ (fun x hx => hv x (List.mem_cons_of_mem a hx))

theorem appendInboxEvent_ok {teamId : String} {rs : List String} {event : InboxEventInput}
    {now : Nat} {st : StoreState}
    (h : ∀ a ∈ dedupFirst ((rs.map jsTrim).filter (fun x => x ≠ "")), isValidId a = true) :
    ∃ st', appendInboxEvent teamId rs event now st = .ok () st' := by
  unfold appendInboxEvent
  exact appendInboxEvent_go_ok teamId event now _ st h

theorem find?_writeList (u : TaskRecord) (l : List TaskRecord) :
    (if l.any (fun t => t.id = u.id) then l.map (fun v => if v.id = u.id then u else v)
     else l ++ [u]).find? (fun t => t.id = u.id) = some u := by
  induction l with
  | nil => simp
  | cons v rest ih =>
    by_cases h : v.id = u.id
    · simp [h]
    · rcases hany : rest.any (fun t => t.id = u.id) with _ | _
      · simpa [h, hany] using (by simpa [hany] using ih)
      · simpa [h, hany] using (by simpa [hany] using ih)

theorem findTask_writeTask (st : StoreState) (u : TaskRecord) :
    findTask (writeTask st u) u.id = some u := by
  unfold findTask writeTask
  have := find?_writeList u st.tasks
  split <;> split at this <;> first | exact this | simp_all

/-- Recipient validity of the broadcast fan-out, as `appendInboxEvent` checks
it (trimmed, non-empty, deduplicated). -/
def BroadcastOk (st : StoreState) : Prop :=
  ∀ a ∈ dedupFirst (((broadcastRecipients st).map jsTrim).filter (fun x => x ≠ "")),
    isValidId a = true

instance (st : StoreState) : Decidable (BroadcastOk st) := by
  unfold BroadcastOk; infer_instance

/-- A task holding a lease that has not yet expired is left alone by the
reset. -/
theorem resetExpiredLease_of_live {now : Nat} {t : TaskRecord} {l : TaskLease}
    (hl : t.lease = some l) (hexp : isLeaseExpired now l = false) :
    resetExpiredLease now t = t := by
  unfold resetExpiredLease
  simp only [hl]
  rw [if_neg]
  rintro ⟨_, h2⟩
  rw [hexp] at h2
  exact Bool.noConfusion h2

/-- The record a successful claim writes and returns. -/
def claimedTask (cfg : StoreConfig) (now : Nat) (input : ClaimTaskInput) (t : TaskRecord) :
    TaskRecord :=
  { t with
    status := .in_progress
    owner := some input.agentId
    lease := some { holder := input.agentId, epoch := t.epoch + 1
                    expiresAt := now + input.ttlMs.getD cfg.defaultLeaseTtlMs }
    epoch := t.epoch + 1
    timestamps := { t.timestamps with startedAt := some (t.timestamps.startedAt.getD now) } }

/-- Forward direction: when the task is `pending` after the reset (and the
broadcast recipients are well-formed ids, as every store-produced state has),
the claim succeeds and returns exactly `claimedTask`. -/
theorem claimTask_ok_of_pending {cfg : StoreConfig} {now : Nat} {input : ClaimTaskInput}
    {st : StoreState} {t : TaskRecord}
    (hfind : findTask st input.taskId = some t)
    (hpend : (resetExpiredLease now t).status = .pending)
    (hrec : BroadcastOk st) :
    ∃ st', claimTask cfg now cfg.teamId input st =
      .ok (claimedTask cfg now input t,
        { holder := input.agentId, epoch := t.epoch + 1
          expiresAt := now + input.ttlMs.getD cfg.defaultLeaseTtlMs }) st' := by
  unfold claimTask
  simp only [hfind, if_neg (by simp : ¬ cfg.teamId ≠ cfg.teamId)]
  rw [if_neg (by simp [hpend])]
  have hbc : broadcastRecipients
      (appendAuditEvent (writeTask st (claimedTask cfg now input t)) input.agentId
        "task_claimed" [("taskId", (claimedTask cfg now input t).id)] now)
      = broadcastRecipients st := by
    rw [broadcastRecipients_appendAuditEvent, broadcastRecipients_writeTask]
  rcases resetExpiredLease_cases now t with hr | hr <;>
    rw [hr] <;>
    · obtain ⟨st', hst'⟩ := @appendInboxEvent_ok cfg.teamId
        (broadcastRecipients
          (appendAuditEvent (writeTask st (claimedTask cfg now input t)) input.agentId
            "task_claimed" [("taskId", (claimedTask cfg now input t).id)] now))
        { type := "task_claimed", taskId := some (claimedTask cfg now input t).id
          actor := some input.agentId
          summary := some ("Task " ++ (claimedTask cfg now input t).id ++
            " claimed by " ++ input.agentId) }
        now
        (appendAuditEvent (writeTask st (claimedTask cfg now input t)) input.agentId
          "task_claimed" [("taskId", (claimedTask cfg now input t).id)] now)
        (by rw [hbc]; exact hrec)
      exact ⟨st', by simp only [claimedTask] at hst' ⊢; rw [hst']⟩

/-- Inversion: a successful claim returns exactly `claimedTask` and its lease,
and the final state's task files are those after writing it. -/
theorem claimTask_ok_inv {cfg : StoreConfig} {now : Nat} {input : ClaimTaskInput}
    {st : StoreState} {t r : TaskRecord} {l2 : TaskLease} {st' : StoreState}
    (hfind : findTask st input.taskId = some t)
    (h : claimTask cfg now cfg.teamId input st = .ok (r, l2) st') :
    (resetExpiredLease now t).status = .pending ∧
    r = claimedTask cfg now input t ∧
    l2 = { holder := input.agentId, epoch := t.epoch + 1
           expiresAt := now + input.ttlMs.getD cfg.defaultLeaseTtlMs } ∧
    st'.tasks = (writeTask st (claimedTask cfg now input t)).tasks := by
  unfold claimTask at h
  simp only [hfind, if_neg (show ¬ cfg.teamId ≠ cfg.teamId by simp)] at h
  split at h
  · exact OpResult.noConfusion h
  case _ hpend =>
    split at h
    case _ e st2 heq => exact OpResult.noConfusion h
    case _ v st2 heq =>
      obtain ⟨hrl, hst⟩ := OpResult.ok.inj h
      obtain ⟨hr, hl⟩ := Prod.mk.inj hrl
      have hepoch : (resetExpiredLease now t).epoch = t.epoch := by
        rcases resetExpiredLease_cases now t with hc | hc <;> rw [hc]
      have hts : (resetExpiredLease now t).timestamps = t.timestamps := by
        rcases resetExpiredLease_cases now t with hc | hc <;> rw [hc]
      have hct : r = claimedTask cfg now input t := by
        rw [← hr]
        rcases resetExpiredLease_cases now t with hc | hc <;>
          simp only [claimedTask, hc, hepoch, hts]
      have hlease : l2 = { holder := input.agentId, epoch := t.epoch + 1
                           expiresAt := now + input.ttlMs.getD cfg.defaultLeaseTtlMs } := by
        rw [← hl, hepoch]
      refine ⟨not_not.mp hpend, hct, hlease, ?_⟩
      have h2 := tasks_appendInboxEvent cfg.teamId
        (broadcastRecipients (appendAuditEvent
          (writeTask st { resetExpiredLease now t with
            status := .in_progress, owner := some input.agentId
            lease := some { holder := input.agentId, epoch := (resetExpiredLease now t).epoch + 1
                            expiresAt := now + input.ttlMs.getD cfg.defaultLeaseTtlMs }
            epoch := (resetExpiredLease now t).epoch + 1
            timestamps := { (resetExpiredLease now t).timestamps with
              startedAt := some ((resetExpiredLease now t).timestamps.startedAt.getD now) } })
          input.agentId "task_claimed" [("taskId", (resetExpiredLease now t).id)] now))
        { type := "task_claimed", taskId := some (resetExpiredLease now t).id
          actor := some input.agentId
          summary := some ("Task " ++ (resetExpiredLease now t).id ++ " claimed by " ++
            input.agentId) } now
        (appendAuditEvent
          (writeTask st { resetExpiredLease now t with
            status := .in_progress, owner := some input.agentId
            lease := some { holder := input.agentId, epoch := (resetExpiredLease now t).epoch + 1
                            expiresAt := now + input.ttlMs.getD cfg.defaultLeaseTtlMs }
            epoch := (resetExpiredLease now t).epoch + 1
            timestamps := { (resetExpiredLease now t).timestamps with
              startedAt := some ((resetExpiredLease now t).timestamps.startedAt.getD now) } })
          input.agentId "task_claimed" [("taskId", (resetExpiredLease now t).id)] now)
      rw [heq] at h2
      simp only [OpResult.state] at h2
      rw [← hst, h2, tasks_appendAuditEvent]
      congr 1
      rcases resetExpiredLease_cases now t with hc | hc <;>
        simp only [claimedTask, hc, hepoch, hts]

/-- A task that is not `pending` after the expired-lease reset is not
claimable. -/
theorem claimTask_err_not_claimable {cfg : StoreConfig} {now : Nat} {input : ClaimTaskInput}
    {st : StoreState} {t : TaskRecord}
    (hfind : findTask st input.taskId = some t)
    (hpend : (resetExpiredLease now t).status ≠ .pending) :
    claimTask cfg now cfg.teamId input st = .error ⟨409, "TASK_NOT_CLAIMABLE"⟩ st := by
  unfold claimTask
  simp only [hfind, if_neg (show ¬ cfg.teamId ≠ cfg.teamId by simp)]
  rw [if_pos hpend]

/-- **C2** (amended).  On a task with a non-null expired lease in
`in_progress`, `claimTask` silently resets it to `pending` and proceeds, so
the claim succeeds; every successful claim returns epoch exactly one more than
the stored epoch (so epochs strictly increase and never decrease, including
across the reset), the lease `{holder, epoch, expiresAt = now + TTL}`, the
owner, and `startedAt` only if it was unset; a claim on a task that is not
pending after the reset fails `409 TASK_NOT_CLAIMABLE`; and of two claims at
the same instant, when the granted TTL is positive, at most one succeeds (the
success branches assume the broadcast recipients are well-formed agent ids, as
in every store-produced state). -/
theorem claim_c2_claim_semantics (cfg : StoreConfig) (now : Nat) (input : ClaimTaskInput)
    (st : StoreState) (t : TaskRecord)
    (hfind : findTask st input.taskId = some t) :
    (∀ l, t.lease = some l → t.status = TaskStatus.in_progress → l.expiresAt ≤ now →
      BroadcastOk st →
      ∃ st', claimTask cfg now cfg.teamId input st =
        .ok (claimedTask cfg now input t,
          { holder := input.agentId, epoch := t.epoch + 1
            expiresAt := now + input.ttlMs.getD cfg.defaultLeaseTtlMs }) st') ∧
    (t.status = TaskStatus.pending → BroadcastOk st →
      ∃ st', claimTask cfg now cfg.teamId input st =
        .ok (claimedTask cfg now input t,
          { holder := input.agentId, epoch := t.epoch + 1
            expiresAt := now + input.ttlMs.getD cfg.defaultLeaseTtlMs }) st') ∧
    (∀ r l2 st', claimTask cfg now cfg.teamId input st = .ok (r, l2) st' →
      r = claimedTask cfg now input t ∧
      l2 = { holder := input.agentId, epoch := t.epoch + 1
             expiresAt := now + input.ttlMs.getD cfg.defaultLeaseTtlMs }) ∧
    ((resetExpiredLease now t).status ≠ .pending →
      claimTask cfg now cfg.teamId input st = .error ⟨409, "TASK_NOT_CLAIMABLE"⟩ st) ∧
    (∀ r l2 st', claimTask cfg now cfg.teamId input st = .ok (r, l2) st' →
      0 < input.ttlMs.getD cfg.defaultLeaseTtlMs →
      ∀ input2 : ClaimTaskInput, input2.taskId = input.taskId →
        claimTask cfg now cfg.teamId input2 st' = .error ⟨409, "TASK_NOT_CLAIMABLE"⟩ st') := by
  refine ⟨?_, ?_, ?_, ?_, ?_⟩
  · intro l hl hstat hexp hrec
    have hpend : (resetExpiredLease now t).status = .pending := by
      rw [resetExpiredLease_of_expired hl hstat (by simp [isLeaseExpired, hexp])]
    exact claimTask_ok_of_pending hfind hpend hrec
  · intro hstat hrec
    have hpend : (resetExpiredLease now t).status = .pending := by
      rw [resetExpiredLease_of_pending hstat]; exact hstat
    exact claimTask_ok_of_pending hfind hpend hrec
  · intro r l2 st' h
    obtain ⟨_, hr, hl, _⟩ := claimTask_ok_inv hfind h
    exact ⟨hr, hl⟩
  · exact claimTask_err_not_claimable hfind
  · intro r l2 st' h httl input2 hid
    obtain ⟨_, hr, _, hst⟩ := claimTask_ok_inv hfind h
    have hctid : (claimedTask cfg now input t).id = t.id := rfl
    have hfind2 : findTask st' input2.taskId = some (claimedTask cfg now input t) := by
      unfold findTask
      rw [hst, hid, ← findTask_id hfind, ← hctid]
      exact findTask_writeTask st (claimedTask cfg now input t)
    have hnotexp : isLeaseExpired now
        { holder := input.agentId, epoch := t.epoch + 1
          expiresAt := now + input.ttlMs.getD cfg.defaultLeaseTtlMs } = false := by
      simp only [isLeaseExpired, decide_eq_false_iff_not]
      omega
    have hreset : resetExpiredLease now (claimedTask cfg now input t)
        = claimedTask cfg now input t :=
      @resetExpiredLease_of_live now (claimedTask cfg now input t)
        { holder := input.agentId, epoch := t.epoch + 1
          expiresAt := now + input.ttlMs.getD cfg.defaultLeaseTtlMs }
        rfl hnotexp
    have hpend2 : (resetExpiredLease now (claimedTask cfg now input t)).status ≠ .pending := by
      rw [hreset]
      simp [claimedTask]
    exact claimTask_err_not_claimable hfind2 hpend2

/-- A concrete pending task. -/
def taskP : TaskRecord :=
  { id := "task-0001", title := "T", description := ""
    status := .pending, owner := none, deps := [], resources := ["src"]
    lease := none, epoch := 0
    timestamps := { createdAt := 0, startedAt := none, completedAt := none, failedAt := none } }

/-- A store state holding exactly `taskP`. -/
def stP : StoreState :=
  { initialState cfgA with tasks := [taskP] }

/-- Counterexample to C2 as stated: with a granted TTL of `0`, a successful
claim leaves a lease that is already expired, so a second claim at the very
same instant silently resets it and succeeds as well — two claims on the same
task, both successful. -/
theorem claim_c2_counterexample :
    (claimTask cfgA 3000 cfgA.teamId
        { taskId := "task-0001", agentId := "worker-a", ttlMs := some 0 } stP).isOk = true ∧
    (claimTask cfgA 3000 cfgA.teamId
        { taskId := "task-0001", agentId := "worker-b", ttlMs := some 0 }
        (claimTask cfgA 3000 cfgA.teamId
          { taskId := "task-0001", agentId := "worker-a", ttlMs := some 0 } stP).state).isOk
      = true := by
  exact ⟨rfl, rfl⟩

/-- Witness for C2 (amended): a plain pending claim at instant 3000 succeeds
with epoch 1 and lease expiring at `3000 + 300000`. -/
theorem claim_c2_claim_semantics_witness :
    ∃ st', claimTask cfgA 3000 cfgA.teamId
        { taskId := "task-0001", agentId := "worker-a" } stP =
      .ok (claimedTask cfgA 3000 { taskId := "task-0001", agentId := "worker-a" } taskP,
        { holder := "worker-a", epoch := 1, expiresAt := 3000 + 300000 }) st' :=
  (claim_c2_claim_semantics cfgA 3000 { taskId := "task-0001", agentId := "worker-a" }
    stP taskP (by decide)).2.1 (by decide) (by decide)

/-! ## C5: idempotent task creation -/

@[simp] theorem writeTask_idempotency (st : StoreState) (u : TaskRecord) :
    (writeTask st u).idempotency = st.idempotency := by
  unfold writeTask; split <;> rfl

@[simp] theorem tasks_writeIdemEntry (st : StoreState) (k : String) (e : IdemEntry) :
    (writeIdemEntry st k e).tasks = st.tasks := by
  unfold writeIdemEntry; split <;> rfl

@[simp] theorem idempotency_appendAuditEvent (st : StoreState) (a b : String)
    (refs : List (String × String)) (n : Nat) :
    (appendAuditEvent st a b refs n).idempotency = st.idempotency := rfl

theorem writeTask_self_mem (st : StoreState) (u : TaskRecord) :
    u ∈ (writeTask st u).tasks := by
  unfold writeTask
  split
  case isTrue h =>
    simp only [List.any_eq_true] at h
    obtain ⟨v, hv, hid⟩ := h
    refine List.mem_map.mpr ⟨v, hv, ?_⟩
    rw [if_pos (of_decide_eq_true hid)]
  case isFalse h =>
    exact List.mem_append.mpr (Or.inr (List.mem_singleton.mpr rfl))

theorem writeTask_nodup {st : StoreState} {u : TaskRecord}
    (h : (st.tasks.map TaskRecord.id).Nodup) :
    ((writeTask st u).tasks.map TaskRecord.id).Nodup := by
  unfold writeTask
  split
  case isTrue _ =>
    have heq : (st.tasks.map (fun v => if v.id = u.id then u else v)).map TaskRecord.id
        = st.tasks.map TaskRecord.id := by
      rw [List.map_map]
      refine List.map_congr_left ?_
      intro v _
      by_cases hv : v.id = u.id
      · simp [hv]
      · simp [hv]
    exact heq ▸ h
  case isFalse hany =>
    have hnotin : u.id ∉ st.tasks.map TaskRecord.id := by
      intro hmem
      obtain ⟨v, hv, hvid⟩ := List.mem_map.mp hmem
      exact hany (List.any_eq_true.mpr ⟨v, hv, decide_eq_true hvid⟩)
    have h1 : (st.tasks ++ [u]).map TaskRecord.id
        = st.tasks.map TaskRecord.id ++ [u.id] := by
      rw [List.map_append]; rfl
    show ((st.tasks ++ [u]).map TaskRecord.id).Nodup
    rw [h1]
    refine List.Nodup.append h (List.nodup_singleton u.id) ?_
    intro x hx hxmem
    rw [List.mem_singleton] at hxmem
    exact hnotin (hxmem ▸ hx)

theorem find?_writePair {β : Type} (k : String) (e : β) (l : List (String × β)) :
    (if l.any (fun p => p.1 = k) then l.map (fun p => if p.1 = k then (k, e) else p)
     else l ++ [(k, e)]).find? (fun p => p.1 = k) = some (k, e) := by
  induction l with
  | nil => simp
  | cons v rest ih =>
    by_cases h : v.1 = k
    · simp [h]
    · rcases hany : rest.any (fun p => p.1 = k) with _ | _
      · simpa [h, hany] using (by simpa [hany] using ih)
      · simpa [h, hany] using (by simpa [hany] using ih)

theorem find?_writeIdemEntry (st : StoreState) (k : String) (e : IdemEntry) :
    (writeIdemEntry st k e).idempotency.find? (fun p => p.1 = k) = some (k, e) := by
  unfold writeIdemEntry
  split
  case isTrue h =>
    have := find?_writePair k e st.idempotency
    rw [if_pos h] at this
    exact this
  case isFalse h =>
    have := find?_writePair k e st.idempotency
    rw [if_neg h] at this
    exact this

theorem filter_id_length_one {l : List TaskRecord} {t : TaskRecord} (ht : t ∈ l)
    (hnd : (l.map TaskRecord.id).Nodup) :
    (l.filter (fun u => u.id = t.id)).length = 1 := by
  induction l with
  | nil => cases ht
  | cons v rest ih =>
    simp only [List.map_cons, List.nodup_cons] at hnd
    obtain ⟨hvid, hnd'⟩ := hnd
    rcases List.mem_cons.mp ht with heq | hmem
    · subst heq
      have hempty : rest.filter (fun u => u.id = t.id) = [] := by
        refine List.filter_eq_nil_iff.mpr ?_
        intro u hu
        simp only [decide_eq_true_eq]
        intro hid
        exact hvid (List.mem_map.mpr ⟨u, hu, hid⟩)
      simp [List.filter_cons, hempty]
    · have hvne : v.id ≠ t.id := by
        intro hid
        exact hvid (List.mem_map.mpr ⟨t, hmem, hid.symm⟩)
      simp [List.filter_cons, hvne, ih hmem hnd']

/-- Inversion of a successful keyed `createTask`: either the idempotency map
already pointed at an existing task (returned with `created = false`, no state
change), or a task was freshly created, written and recorded under the key. -/
theorem createTask_ok_inv {cfg : StoreConfig} {now : Nat} {input : CreateTaskInput}
    {k : String} {st : StoreState} {task : TaskRecord} {created : Bool} {st' : StoreState}
    (hk : k ≠ "")
    (h : createTask cfg now cfg.teamId input (some k) st = .ok (task, created) st') :
    (created = false ∧ st' = st ∧
      ∃ e, (st.idempotency.find? (fun p => p.1 = k)).map Prod.snd = some e ∧
        findTask st e.taskId = some task) ∨
    (created = true ∧ st'.tasks = (writeTask st task).tasks ∧
      st'.idempotency.find? (fun p => p.1 = k) = some (k, ⟨task.id, now⟩)) := by
  have hnew : ∀ (st0 : StoreState) (title desc : String) (deps res : List String),
      createTaskNew cfg now title desc deps res (some k) st0 = .ok (task, created) st' →
      created = true ∧ st'.tasks = (writeTask st0 task).tasks ∧
        st'.idempotency.find? (fun p => p.1 = k) = some (k, ⟨task.id, now⟩) := by
    intro st0 title desc deps res hn
    unfold createTaskNew at hn
    obtain ⟨htc, hst⟩ := OpResult.ok.inj hn
    obtain ⟨htask, hcreated⟩ := Prod.mk.inj htc
    subst htask
    refine ⟨hcreated.symm, ?_, ?_⟩
    · rw [← hst, tasks_appendAuditEvent]
      dsimp only
      rw [if_neg hk, tasks_writeIdemEntry]
    · rw [← hst, idempotency_appendAuditEvent]
      dsimp only
      rw [if_neg hk]
      exact find?_writeIdemEntry _ k _
  unfold createTask at h
  rw [if_neg (show ¬ cfg.teamId ≠ cfg.teamId by simp)] at h
  simp only [] at h
  by_cases htitle : jsTrim input.title = ""
  · rw [if_pos htitle] at h
    exact OpResult.noConfusion h
  · rw [if_neg htitle, if_neg hk] at h
    split at h
    case _ entry heq =>
      split at h
      case _ ex hex =>
        obtain ⟨htc, hst⟩ := OpResult.ok.inj h
        obtain ⟨htask, hcreated⟩ := Prod.mk.inj htc
        exact Or.inl ⟨hcreated.symm, hst.symm, entry, heq, htask ▸ hex⟩
      case _ hex =>
        exact Or.inr (hnew st _ _ _ _ h)
    case _ heq =>
      exact Or.inr (hnew st _ _ _ _ h)

/-- When the key is recorded and its task exists, a keyed `createTask` with a
non-empty title returns the stored task with `created = false` and no state
change. -/
theorem createTask_key_hit {cfg : StoreConfig} {now : Nat} {input : CreateTaskInput}
    {k : String} {st : StoreState} {e : IdemEntry} {task : TaskRecord}
    (hk : k ≠ "") (htitle : jsTrim input.title ≠ "")
    (he : (st.idempotency.find? (fun p => p.1 = k)).map Prod.snd = some e)
    (ht : findTask st e.taskId = some task) :
    createTask cfg now cfg.teamId input (some k) st = .ok (task, false) st := by
  unfold createTask
  rw [if_neg (show ¬ cfg.teamId ≠ cfg.teamId by simp), if_neg htitle]
  dsimp only
  rw [if_neg hk]
  simp only [he, ht]

/-- **C5** (amended).  For two keyed `createTask` calls with the same
non-empty key (`if (idempotencyKey && ...)` treats an empty key as absent, so
an empty key always mints a fresh task) where the first succeeds and the
second carries a non-empty title (an empty title is rejected
`400 INVALID_TASK` before the idempotency lookup), the second call returns the
first call's task with `created = false` and changes nothing, and the task
listing afterwards contains exactly one task with that identifier. -/
theorem claim_c5_idempotent_create (cfg : StoreConfig) (now1 now2 : Nat)
    (in1 in2 : CreateTaskInput) (k : String) (st st1 : StoreState)
    (task1 : TaskRecord) (created1 : Bool)
    (hk : k ≠ "")
    (hNodup : (st.tasks.map TaskRecord.id).Nodup)
    (h1 : createTask cfg now1 cfg.teamId in1 (some k) st = .ok (task1, created1) st1)
    (h2title : jsTrim in2.title ≠ "") :
    createTask cfg now2 cfg.teamId in2 (some k) st1 = .ok (task1, false) st1 ∧
    ∀ ts, listTasks cfg cfg.teamId st1 = .ok ts st1 →
      (ts.filter (fun u => u.id = task1.id)).length = 1 := by
  have hmemnodup : task1 ∈ st1.tasks ∧ (st1.tasks.map TaskRecord.id).Nodup ∧
      createTask cfg now2 cfg.teamId in2 (some k) st1 = .ok (task1, false) st1 := by
    rcases createTask_ok_inv hk h1 with ⟨_, hst, e, he, ht⟩ | ⟨_, htasks, hidem⟩
    · subst hst
      exact ⟨findTask_mem ht, hNodup, createTask_key_hit hk h2title he ht⟩
    · have hfind1 : findTask st1 task1.id = some task1 := by
        unfold findTask
        rw [htasks]
        exact findTask_writeTask st task1
      have he1 : (st1.idempotency.find? (fun p => p.1 = k)).map Prod.snd
          = some ⟨task1.id, now1⟩ := by rw [hidem]; rfl
      refine ⟨?_, ?_, createTask_key_hit hk h2title he1 hfind1⟩
      · have := writeTask_self_mem st task1
        rw [← htasks] at this
        exact this
      · have := @writeTask_nodup st task1 hNodup
        rw [← htasks] at this
        exact this
  obtain ⟨hmem, hnd, hsecond⟩ := hmemnodup
  refine ⟨hsecond, ?_⟩
  intro ts hts
  unfold listTasks at hts
  rw [if_neg (show ¬ cfg.teamId ≠ cfg.teamId by simp)] at hts
  obtain ⟨htseq, _⟩ := OpResult.ok.inj hts
  have hperm : (st1.tasks.insertionSort (fun a b => a.id ≤ b.id)).Perm st1.tasks :=
    List.perm_insertionSort _ _
  have hfil := (hperm.filter (fun u => decide (u.id = task1.id))).length_eq
  rw [← htseq]
  rw [hfil]
  exact filter_id_length_one hmem hnd

/-- Counterexample to C5 as stated, in two parts.  First, validation precedes
the idempotency lookup: a second call with the same key whose title trims to
empty is rejected `400 INVALID_TASK` instead of returning the stored task.
Second, the empty-string key (an empty `Idempotency-Key` header is forwarded
verbatim) is treated as absent by the truthiness guards
`if (idempotencyKey && ...)` / `if (idempotencyKey)`: the second empty-key
call mints a fresh `task-0002` with `created = true` and the listing then
holds two tasks, not one. -/
theorem claim_c5_counterexample :
    ((createTask cfgA 1000 cfgA.teamId { title := "First" } (some "k1")
        (initialState cfgA)).isOk = true ∧
      createTask cfgA 2000 cfgA.teamId { title := "" } (some "k1")
          (createTask cfgA 1000 cfgA.teamId { title := "First" } (some "k1")
            (initialState cfgA)).state
        = .error ⟨400, "INVALID_TASK"⟩
          (createTask cfgA 1000 cfgA.teamId { title := "First" } (some "k1")
            (initialState cfgA)).state) ∧
    ((createTask cfgA 2000 cfgA.teamId { title := "Second" } (some "")
        (createTask cfgA 1000 cfgA.teamId { title := "First" } (some "")
          (initialState cfgA)).state).value?.map (fun r => (r.1.id, r.2))
      = some ("task-0002", true) ∧
    ((createTask cfgA 2000 cfgA.teamId { title := "Second" } (some "")
        (createTask cfgA 1000 cfgA.teamId { title := "First" } (some "")
          (initialState cfgA)).state).state.tasks.map TaskRecord.id)
      = ["task-0001", "task-0002"]) :=
  ⟨⟨rfl, rfl⟩, rfl, rfl⟩

/-- The task minted by the first keyed create of the C5 witness. -/
def taskFirst : TaskRecord :=
  { id := "task-0001", title := "First", description := ""
    status := .pending, owner := none, deps := [], resources := []
    lease := none, epoch := 0
    timestamps := { createdAt := 1000, startedAt := none, completedAt := none, failedAt := none } }

/-- The state after the first keyed create of the C5 witness. -/
def st1c5 : StoreState :=
  (createTask cfgA 1000 cfgA.teamId { title := "First" } (some "k1")
    (initialState cfgA)).state

/-- Witness for C5 (amended) at concrete inputs: the second call with a
different payload returns `task-0001` with `created = false`. -/
theorem claim_c5_idempotent_create_witness :
    createTask cfgA 2000 cfgA.teamId { title := "Second", description := some "other" }
        (some "k1") st1c5
      = .ok (taskFirst, false) st1c5 :=
  (claim_c5_idempotent_create cfgA 1000 2000 { title := "First" }
    { title := "Second", description := some "other" } "k1" (initialState cfgA) st1c5
    taskFirst true
    (by decide) (by decide) rfl (by decide)).1

/-! ## C4: dependency gating and unblocking -/

theorem find?_map_replace_ne {v : TaskRecord} {x : String} (h : v.id ≠ x) :
    ∀ l : List TaskRecord,
      (l.map (fun w => if w.id = v.id then v else w)).find? (fun t => t.id = x)
        = l.find? (fun t => t.id = x) := by
  have hv : decide (v.id = x) = false := by simp [h]
  intro l
  induction l with
  | nil => rfl
  | cons w rest ih =>
    by_cases hw : w.id = v.id
    · have hwx : decide (w.id = x) = false := by simp [hw, h]
      simp only [List.map_cons, if_pos hw, List.find?_cons, hv, hwx, ih]
    · by_cases hx : w.id = x
      · have hwx : decide (w.id = x) = true := by simp [hx]
        simp only [List.map_cons, if_neg hw, List.find?_cons, hwx]
      · have hwx : decide (w.id = x) = false := by simp [hx]
        simp only [List.map_cons, if_neg hw, List.find?_cons, hwx, ih]

theorem find?_append_one_ne {v : TaskRecord} {x : String} (h : v.id ≠ x) :
    ∀ l : List TaskRecord,
      (l ++ [v]).find? (fun t => t.id = x) = l.find? (fun t => t.id = x) := by
  have hv : decide (v.id = x) = false := by simp [h]
  intro l
  induction l with
  | nil =>
    simp only [List.nil_append, List.find?_cons, hv, List.find?_nil]
  | cons w rest ih =>
    by_cases hx : w.id = x
    · have hwx : decide (w.id = x) = true := by simp [hx]
      simp only [List.cons_append, List.find?_cons, hwx]
    · have hwx : decide (w.id = x) = false := by simp [hx]
      simp only [List.cons_append, List.find?_cons, hwx, ih]

theorem findTask_writeTask_ne {st : StoreState} {v : TaskRecord} {x : String}
    (h : v.id ≠ x) : findTask (writeTask st v) x = findTask st x := by
  unfold findTask writeTask
  split
  · exact find?_map_replace_ne h st.tasks
  · exact find?_append_one_ne h st.tasks

theorem writeTask_mem_other {st : StoreState} {v u : TaskRecord}
    (hu : u ∈ st.tasks) (h : u.id ≠ v.id) : u ∈ (writeTask st v).tasks := by
  unfold writeTask
  split
  · exact List.mem_map.mpr ⟨u, hu, by rw [if_neg h]⟩
  · exact List.mem_append.mpr (Or.inl hu)

theorem eq_of_mem_id {l : List TaskRecord} (hnd : (l.map TaskRecord.id).Nodup)
    {u w : TaskRecord} (hu : u ∈ l) (hw : w ∈ l) (hid : u.id = w.id) : u = w := by
  induction l with
  | nil => cases hu
  | cons v rest ih =>
    simp only [List.map_cons, List.nodup_cons] at hnd
    obtain ⟨hvid, hnd'⟩ := hnd
    rcases List.mem_cons.mp hu with h1 | h1 <;> rcases List.mem_cons.mp hw with h2 | h2
    · rw [h1, h2]
    · subst h1
      exact absurd (List.mem_map.mpr ⟨w, h2, hid.symm⟩) hvid
    · subst h2
      exact absurd (List.mem_map.mpr ⟨u, h1, hid⟩) hvid
    · exact ih hnd' h1 h2

theorem createTaskNew_status {cfg : StoreConfig} {now : Nat} {title desc : String}
    {deps res : List String} {key : Option String} {st : StoreState}
    {task : TaskRecord} {created : Bool} {st' : StoreState}
    (h : createTaskNew cfg now title desc deps res key st = .ok (task, created) st') :
    created = true ∧ task.deps = deps ∧
      task.status =
        (if deps.length > 0 && !(deps.all (depCompleted st)) then .blocked else .pending) := by
  unfold createTaskNew at h
  obtain ⟨htc, _⟩ := OpResult.ok.inj h
  obtain ⟨htask, hcreated⟩ := Prod.mk.inj htc
  exact ⟨hcreated.symm, by rw [← htask], by rw [← htask]⟩

theorem createTask_created_inv {cfg : StoreConfig} {now : Nat} {input : CreateTaskInput}
    {key : Option String} {st : StoreState} {task : TaskRecord} {created : Bool}
    {st' : StoreState}
    (h : createTask cfg now cfg.teamId input key st = .ok (task, created) st')
    (hc : created = true) :
    task.status =
      (if task.deps.length > 0 && !(task.deps.all (depCompleted st)) then .blocked
       else .pending) := by
  unfold createTask at h
  rw [if_neg (show ¬ cfg.teamId ≠ cfg.teamId by simp)] at h
  simp only [] at h
  by_cases htitle : jsTrim input.title = ""
  · rw [if_pos htitle] at h
    exact OpResult.noConfusion h
  · rw [if_neg htitle] at h
    cases key with
    | none =>
      obtain ⟨_, hdeps, hstat⟩ := createTaskNew_status h
      rw [hstat, hdeps]
    | some k =>
      dsimp only at h
      by_cases hk : k = ""
      · rw [if_pos hk] at h
        obtain ⟨_, hdeps, hstat⟩ := createTaskNew_status h
        rw [hstat, hdeps]
      · rw [if_neg hk] at h
        split at h
        case _ entry heq =>
          split at h
          case _ ex hex =>
            obtain ⟨htc, _⟩ := OpResult.ok.inj h
            obtain ⟨_, hcreated⟩ := Prod.mk.inj htc
            rw [hc] at hcreated
            exact Bool.noConfusion hcreated
          case _ =>
            obtain ⟨_, hdeps, hstat⟩ := createTaskNew_status h
            rw [hstat, hdeps]
        case _ =>
          obtain ⟨_, hdeps, hstat⟩ := createTaskNew_status h
          rw [hstat, hdeps]

theorem finalizeTask_err_not_found {cfg : StoreConfig} {now : Nat}
    {input : FinalizeTaskInput} {final : TaskStatus} {st : StoreState}
    (hfind : findTask st input.taskId = none) :
    finalizeTask cfg now input final st = .error ⟨404, "TASK_NOT_FOUND"⟩ st := by
  unfold finalizeTask
  simp only [hfind]

theorem unlock_foldl_untouched (cid actor : String) (now : Nat) (cids : List String) :
    ∀ (l : List TaskRecord) (acc : StoreState) (x : String),
      (∀ w ∈ l, w.id ≠ x) →
      findTask (l.foldl (fun (acc : StoreState) (t : TaskRecord) =>
        if t.status = TaskStatus.blocked ∧ cid ∈ t.deps ∧ ∀ d ∈ t.deps, d ∈ cids then
          appendAuditEvent (writeTask acc { t with status := .pending }) actor "task_unblocked"
            [("taskId", t.id)] now
        else acc) acc) x = findTask acc x := by
  intro l
  induction l with
  | nil => intro acc x _; rfl
  | cons w rest ih =>
    intro acc x hne
    rw [List.foldl_cons, ih _ x (fun v hv => hne v (List.mem_cons_of_mem w hv))]
    split
    · exact findTask_writeTask_ne (hne w (List.mem_cons_self w rest))
    · rfl

theorem unlock_foldl_found (cid actor : String) (now : Nat) (cids : List String) :
    ∀ (l : List TaskRecord) (acc : StoreState) (u : TaskRecord),
      ((l.map TaskRecord.id).Nodup) → u ∈ l →
      (u.status = TaskStatus.blocked ∧ cid ∈ u.deps ∧ ∀ d ∈ u.deps, d ∈ cids) →
      findTask (l.foldl (fun (acc : StoreState) (t : TaskRecord) =>
        if t.status = TaskStatus.blocked ∧ cid ∈ t.deps ∧ ∀ d ∈ t.deps, d ∈ cids then
          appendAuditEvent (writeTask acc { t with status := .pending }) actor "task_unblocked"
            [("taskId", t.id)] now
        else acc) acc) u.id = some { u with status := .pending } := by
  intro l
  induction l with
  | nil => intro acc u _ hu _; cases hu
  | cons w rest ih =>
    intro acc u hnd hu hcond
    simp only [List.map_cons, List.nodup_cons] at hnd
    obtain ⟨hwid, hnd'⟩ := hnd
    rw [List.foldl_cons]
    rcases List.mem_cons.mp hu with heq | hmem
    · subst heq
      rw [unlock_foldl_untouched cid actor now cids rest _ u.id
        (fun v hv hveq => hwid (hveq ▸ List.mem_map.mpr ⟨v, hv, rfl⟩))]
      rw [if_pos hcond]
      exact findTask_writeTask acc { u with status := .pending }
    · exact ih _ u hnd' hmem hcond

theorem unlockDependents_spec {cid actor : String} {now : Nat} {st : StoreState}
    {u : TaskRecord}
    (hnd : (st.tasks.map TaskRecord.id).Nodup) (hu : u ∈ st.tasks)
    (hcond : u.status = TaskStatus.blocked ∧ cid ∈ u.deps ∧
      ∀ d ∈ u.deps,
        d ∈ (st.tasks.filter (fun t => t.status = TaskStatus.completed)).map TaskRecord.id) :
    findTask (unlockDependents cid actor now st) u.id
      = some { u with status := .pending } := by
  unfold unlockDependents
  exact unlock_foldl_found cid actor now _ st.tasks st u hnd hu hcond

/-- **C4**.  A newly created task is `pending` iff its (stored) dependency
list is empty or every listed dependency is a task whose status is
`completed`, and `blocked` otherwise; after every successful `completeTask`,
every blocked task listing the completed task whose dependencies are now all
completed is flipped to `pending`; `failTask` rewrites no other task file, so
it triggers no unblocking. -/
theorem claim_c4_dependency_unblocking (cfg : StoreConfig) (now : Nat) (st : StoreState) :
    (∀ input key task created st',
      createTask cfg now cfg.teamId input key st = .ok (task, created) st' →
      created = true →
      ((task.status = .pending ↔
          (task.deps = [] ∨ ∀ d ∈ task.deps, depCompleted st d = true)) ∧
        (task.status = .blocked ↔
          ¬(task.deps = [] ∨ ∀ d ∈ task.deps, depCompleted st d = true)))) ∧
    (∀ (input : FinalizeTaskInput) r st',
      completeTask cfg now cfg.teamId input st = .ok r st' →
      (st.tasks.map TaskRecord.id).Nodup →
      ∀ u ∈ st.tasks, u.status = TaskStatus.blocked → input.taskId ∈ u.deps →
        (∀ d ∈ u.deps, d = input.taskId ∨
          ∃ w ∈ st.tasks, w.id = d ∧ w.status = TaskStatus.completed) →
        findTask st' u.id = some { u with status := .pending }) ∧
    (∀ (input : FinalizeTaskInput) r st',
      failTask cfg now cfg.teamId input st = .ok r st' →
      ∀ x, x ≠ input.taskId → findTask st' x = findTask st x) := by
  refine ⟨?_, ?_, ?_⟩
  · intro input key task created st' h hc
    have hstat := createTask_created_inv h hc
    have hkey : ((task.deps.length > 0 && !(task.deps.all (depCompleted st))) = true)
        ↔ ¬(task.deps = [] ∨ ∀ d ∈ task.deps, depCompleted st d = true) := by
      rw [Bool.and_eq_true]
      simp only [Bool.not_eq_true', Bool.eq_false_iff, List.all_eq_true, not_or,
        decide_eq_true_eq, gt_iff_lt, List.length_pos]
      simp [ne_eq, List.all_eq_true]
    by_cases hb : (task.deps.length > 0 && !(task.deps.all (depCompleted st))) = true
    · have hrhsF := hkey.mp hb
      have hstat' : task.status = TaskStatus.blocked := by rw [hstat, if_pos hb]
      refine ⟨⟨fun hp => ?_, fun hrhs => absurd hrhs hrhsF⟩,
        ⟨fun _ => hrhsF, fun _ => hstat'⟩⟩
      rw [hstat'] at hp
      exact TaskStatus.noConfusion hp
    · have hrhsT : task.deps = [] ∨ ∀ d ∈ task.deps, depCompleted st d = true := by
        by_contra hn
        exact hb (hkey.mpr hn)
      have hstat' : task.status = TaskStatus.pending := by rw [hstat, if_neg hb]
      refine ⟨⟨fun _ => hrhsT, fun _ => hstat'⟩,
        ⟨fun hp => ?_, fun hn => absurd hrhsT hn⟩⟩
      rw [hstat'] at hp
      exact TaskStatus.noConfusion hp
  · intro input r st' h hnd u hu hublocked hudep hdeps
    unfold completeTask at h
    rw [if_neg (show ¬ cfg.teamId ≠ cfg.teamId by simp)] at h
    rcases hfin : finalizeTask cfg now input .completed st with _ | _
    case error e s2 => rw [hfin] at h; exact OpResult.noConfusion h
    case ok task2 stMid =>
      rw [hfin] at h
      obtain ⟨hr, hst'⟩ := OpResult.ok.inj h
      rcases hfind : findTask st input.taskId with _ | t
      · rw [finalizeTask_err_not_found hfind] at hfin
        exact OpResult.noConfusion hfin
      obtain ⟨⟨hstat, _⟩, hshape, htasks⟩ := finalizeTask_ok_inv hfind hfin
      have htid : t.id = input.taskId := findTask_id hfind
      have htask2id : task2.id = input.taskId := by rw [hshape]; exact htid
      have htask2stat : task2.status = TaskStatus.completed := by rw [hshape]
      have huid : u.id ≠ input.taskId := by
        intro he
        have := eq_of_mem_id hnd hu (findTask_mem hfind) (he.trans htid.symm)
        rw [this, hstat] at hublocked
        exact TaskStatus.noConfusion hublocked
      have hndMid : (stMid.tasks.map TaskRecord.id).Nodup := by
        rw [htasks]; exact writeTask_nodup hnd
      have huMid : u ∈ stMid.tasks := by
        rw [htasks]
        exact writeTask_mem_other hu (fun he => huid (he.trans htask2id))
      have hcids : ∀ d ∈ u.deps,
          d ∈ (stMid.tasks.filter (fun w => w.status = TaskStatus.completed)).map
            TaskRecord.id := by
        intro d hd
        rcases hdeps d hd with hdt | ⟨w, hw, hwid, hwstat⟩
        · refine List.mem_map.mpr ⟨task2, List.mem_filter.mpr ⟨?_, by simp [htask2stat]⟩, ?_⟩
          · rw [htasks]; exact writeTask_self_mem st task2
          · rw [htask2id, hdt]
        · have hwne : w.id ≠ input.taskId := by
            intro he
            have := eq_of_mem_id hnd hw (findTask_mem hfind) (he.trans htid.symm)
            rw [this, hstat] at hwstat
            exact TaskStatus.noConfusion hwstat
          refine List.mem_map.mpr ⟨w, List.mem_filter.mpr ⟨?_, by simp [hwstat]⟩, hwid⟩
          rw [htasks]
          exact writeTask_mem_other hw (fun he => hwne (he.trans htask2id))
      rw [← hst']
      rw [← htask2id] at hudep
      exact @unlockDependents_spec task2.id input.agentId now stMid _ hndMid huMid
        ⟨hublocked, hudep, hcids⟩
  · intro input r st' h x hx
    unfold failTask at h
    rw [if_neg (show ¬ cfg.teamId ≠ cfg.teamId by simp)] at h
    rcases hfin : finalizeTask cfg now input .failed st with _ | _
    case error e s2 => rw [hfin] at h; exact OpResult.noConfusion h
    case ok task2 stMid =>
      rw [hfin] at h
      obtain ⟨hr, hst'⟩ := OpResult.ok.inj h
      rcases hfind : findTask st input.taskId with _ | t
      · rw [finalizeTask_err_not_found hfind] at hfin
        exact OpResult.noConfusion hfin
      obtain ⟨_, hshape, htasks⟩ := finalizeTask_ok_inv hfind hfin
      have htid := findTask_id hfind
      have htask2id : task2.id = input.taskId := by rw [hshape]; exact htid
      rw [← hst']
      show stMid.tasks.find? (fun w => w.id = x) = st.tasks.find? (fun w => w.id = x)
      rw [htasks]
      exact findTask_writeTask_ne (fun he => hx ((htask2id ▸ he : input.taskId = x)).symm)

/-- A blocked task depending on `task-0001`. -/
def taskB : TaskRecord :=
  { id := "task-0002", title := "B", description := ""
    status := .blocked, owner := none, deps := ["task-0001"], resources := []
    lease := none, epoch := 0
    timestamps := { createdAt := 0, startedAt := none, completedAt := none, failedAt := none } }

/-- A store with `task-0001` in progress and `task-0002` blocked on it. -/
def stC4 : StoreState :=
  { initialState cfgA with tasks := [taskC3, taskB] }

/-- Witness for C4: completing `task-0001` flips the blocked `task-0002` to
`pending`. -/
theorem claim_c4_dependency_unblocking_witness :
    findTask (completeTask cfgA 1000 cfgA.teamId
        { taskId := "task-0001", agentId := "worker-a", epoch := 1 } stC4).state "task-0002"
      = some { taskB with status := .pending } :=
  (claim_c4_dependency_unblocking cfgA 1000 stC4).2.1
    { taskId := "task-0001", agentId := "worker-a", epoch := 1 } _ _ rfl (by decide)
    taskB (by decide) (by decide) (by decide) (by decide)

/-! ## C1: the lease/status/owner/epoch invariant -/

theorem tasks_appendInboxEvent_error {teamId : String} {rs : List String}
    {event : InboxEventInput} {now : Nat} {st : StoreState} {e : TeamdStoreError}
    {stx : StoreState}
    (heq : appendInboxEvent teamId rs event now st = .error e stx) : stx.tasks = st.tasks := by
  have h := tasks_appendInboxEvent teamId rs event now st
  rw [heq] at h
  simpa [OpResult.state] using h

theorem TaskInv_of_no_lease {t : TaskRecord} (hl : t.lease = none)
    (hs : t.status ≠ TaskStatus.in_progress) : TaskInv t := by
  refine ⟨⟨fun hne => absurd hl hne, fun hs' => absurd hs' hs⟩, fun l hl2 => ?_⟩
  rw [hl] at hl2
  exact Option.noConfusion hl2

theorem TaskInv_of_lease {t : TaskRecord} {l : TaskLease} (hl : t.lease = some l)
    (hs : t.status = TaskStatus.in_progress) (ho : t.owner = some l.holder)
    (he : t.epoch = l.epoch) : TaskInv t := by
  refine ⟨⟨fun _ => hs, fun _ => by rw [hl]; exact Option.noConfusion⟩, fun l2 hl2 => ?_⟩
  rw [hl] at hl2
  obtain rfl := Option.some.inj hl2
  exact ⟨ho, he⟩

theorem StateInv_of_tasks_eq {st st' : StoreState} (h : st'.tasks = st.tasks)
    (hi : StateInv st) : StateInv st' := by
  intro t ht
  exact hi t (h ▸ ht)

theorem StateInv_writeTask {st : StoreState} {u : TaskRecord} (hi : StateInv st)
    (hu : TaskInv u) : StateInv (writeTask st u) := by
  intro t ht
  rcases writeTask_mem ht with h | h
  · exact h ▸ hu
  · exact hi t h

theorem createTask_inv (cfg : StoreConfig) (now : Nat) (teamId : String)
    (input : CreateTaskInput) (key : Option String) (st : StoreState) (hi : StateInv st) :
    StateInv (createTask cfg now teamId input key st).state := by
  have hnew : ∀ (title desc : String) (deps res : List String) (k : Option String),
      StateInv (createTaskNew cfg now title desc deps res k st).state := by
    intro title desc deps res k
    unfold createTaskNew
    simp only [OpResult.state]
    intro t ht
    have hstatus :
        (if deps.length > 0 && !(deps.all (depCompleted st)) then TaskStatus.blocked
         else TaskStatus.pending) ≠ TaskStatus.in_progress := by
      split <;> simp
    rcases k with _ | k2
    · rw [tasks_appendAuditEvent] at ht
      rcases writeTask_mem ht with h | h
      · subst h
        exact TaskInv_of_no_lease rfl hstatus
      · exact hi t h
    · rw [tasks_appendAuditEvent] at ht
      dsimp only at ht
      by_cases hk2 : k2 = ""
      · rw [if_pos hk2] at ht
        rcases writeTask_mem ht with h | h
        · subst h
          exact TaskInv_of_no_lease rfl hstatus
        · exact hi t h
      · rw [if_neg hk2, tasks_writeIdemEntry] at ht
        rcases writeTask_mem ht with h | h
        · subst h
          exact TaskInv_of_no_lease rfl hstatus
        · exact hi t h
  unfold createTask
  split
  · exact StateInv_of_tasks_eq rfl hi
  case _ =>
    dsimp only
    by_cases htitle : jsTrim input.title = ""
    · rw [if_pos htitle]
      exact StateInv_of_tasks_eq rfl hi
    · rw [if_neg htitle]
      cases key with
      | none => exact hnew _ _ _ _ _
      | some k2 =>
        dsimp only
        by_cases hk2 : k2 = ""
        · rw [if_pos hk2]
          exact hnew _ _ _ _ _
        · rw [if_neg hk2]
          split
          case _ entry heq =>
            split
            case _ ex hex => exact StateInv_of_tasks_eq rfl hi
            case _ => exact hnew _ _ _ _ _
          case _ => exact hnew _ _ _ _ _

/-- The state kept by the audit-then-inbox tail of `claimTask`/`finalizeTask`
holds exactly the task files written before it. -/
theorem state_tasks_of_inbox_match {α : Type} (v : α) (teamId : String) (rs : List String)
    (ev : InboxEventInput) (now : Nat) (st1 : StoreState) :
    ((match appendInboxEvent teamId rs ev now st1 with
      | .error e st2 => (.error e st2 : OpResult α)
      | .ok _ st2 => .ok v st2).state).tasks = st1.tasks := by
  rcases heq : appendInboxEvent teamId rs ev now st1 with _ | _
  case ok u st2 => simpa [OpResult.state] using tasks_appendInboxEvent_ok heq
  case error e st2 => simpa [OpResult.state] using tasks_appendInboxEvent_error heq

theorem claimTask_inv (cfg : StoreConfig) (now : Nat) (teamId : String)
    (input : ClaimTaskInput) (st : StoreState) (hi : StateInv st) :
    StateInv (claimTask cfg now teamId input st).state := by
  unfold claimTask
  split
  · exact StateInv_of_tasks_eq rfl hi
  split
  · exact StateInv_of_tasks_eq rfl hi
  case _ task0 hfind =>
    dsimp only
    split
    · exact StateInv_of_tasks_eq rfl hi
    case _ hpend =>
      have hW : StateInv (writeTask st
          { resetExpiredLease now task0 with
            status := .in_progress
            owner := some input.agentId
            lease := some { holder := input.agentId
                            epoch := (resetExpiredLease now task0).epoch + 1
                            expiresAt := now + input.ttlMs.getD cfg.defaultLeaseTtlMs }
            epoch := (resetExpiredLease now task0).epoch + 1
            timestamps := { (resetExpiredLease now task0).timestamps with
              startedAt := some ((resetExpiredLease now task0).timestamps.startedAt.getD now) } }) :=
        StateInv_writeTask hi (TaskInv_of_lease rfl rfl rfl rfl)
      refine StateInv_of_tasks_eq ?_ hW
      rw [state_tasks_of_inbox_match, tasks_appendAuditEvent]

theorem renewTask_inv (cfg : StoreConfig) (now : Nat) (teamId : String)
    (input : RenewTaskInput) (st : StoreState) (hi : StateInv st) :
    StateInv (renewTask cfg now teamId input st).state := by
  unfold renewTask
  split
  · exact StateInv_of_tasks_eq rfl hi
  split
  · exact StateInv_of_tasks_eq rfl hi
  case _ task hfind =>
    split
    · exact StateInv_of_tasks_eq rfl hi
    case _ lease hlease =>
      split
      · exact StateInv_of_tasks_eq rfl hi
      case _ hstat =>
        split
        · exact StateInv_of_tasks_eq rfl hi
        split
        · exact StateInv_of_tasks_eq rfl hi
        split
        · exact StateInv_of_tasks_eq rfl hi
        case _ hexp hhold hepoch =>
          simp only [OpResult.state]
          refine StateInv_of_tasks_eq (by rw [tasks_appendAuditEvent]) ?_
          refine StateInv_writeTask hi ?_
          obtain ⟨_, hagree⟩ := hi task (findTask_mem hfind)
          obtain ⟨ho, he⟩ := hagree lease hlease
          exact TaskInv_of_lease rfl (not_not.mp hstat) ho he

theorem finalizeTask_inv (cfg : StoreConfig) (now : Nat) (input : FinalizeTaskInput)
    (final : TaskStatus) (hfinal : final ≠ TaskStatus.in_progress) (st : StoreState)
    (hi : StateInv st) : StateInv (finalizeTask cfg now input final st).state := by
  unfold finalizeTask
  split
  · exact StateInv_of_tasks_eq rfl hi
  case _ task hfind =>
    split
    · exact StateInv_of_tasks_eq rfl hi
    case _ lease hlease =>
      split
      · exact StateInv_of_tasks_eq rfl hi
      split
      · exact StateInv_of_tasks_eq rfl hi
      split
      · exact StateInv_of_tasks_eq rfl hi
      split
      · exact StateInv_of_tasks_eq rfl hi
      case _ =>
        dsimp only
        have hW : StateInv (writeTask st
            { task with
              status := final
              lease := none
              timestamps := finalizeTimestamps final now task.timestamps }) :=
          StateInv_writeTask hi (TaskInv_of_no_lease rfl hfinal)
        refine StateInv_of_tasks_eq ?_ hW
        rw [state_tasks_of_inbox_match, tasks_appendAuditEvent]

theorem unlock_foldl_inv (cid actor : String) (now : Nat) (cids : List String) :
    ∀ (l : List TaskRecord) (acc : StoreState), (∀ t ∈ l, TaskInv t) → StateInv acc →
      StateInv (l.foldl (fun (acc : StoreState) (t : TaskRecord) =>
        if t.status = TaskStatus.blocked ∧ cid ∈ t.deps ∧ ∀ d ∈ t.deps, d ∈ cids then
          appendAuditEvent (writeTask acc { t with status := .pending }) actor "task_unblocked"
            [("taskId", t.id)] now
        else acc) acc) := by
  intro l
  induction l with
  | nil => intro acc _ hacc; exact hacc
  | cons w rest ih =>
    intro acc hl hacc
    rw [List.foldl_cons]
    refine ih _ (fun t ht => hl t (List.mem_cons_of_mem w ht)) ?_
    split
    case isTrue hcond =>
      refine StateInv_of_tasks_eq (by rw [tasks_appendAuditEvent]) ?_
      refine StateInv_writeTask hacc ?_
      have hw := hl w (List.mem_cons_self w rest)
      have hwl : w.lease = none := by
        by_contra hne
        have := hw.1.mp hne
        rw [hcond.1] at this
        exact TaskStatus.noConfusion this
      exact TaskInv_of_no_lease hwl (by simp)
    case isFalse => exact hacc

theorem unlockDependents_inv (cid actor : String) (now : Nat) (st : StoreState)
    (hi : StateInv st) : StateInv (unlockDependents cid actor now st) := by
  unfold unlockDependents
  exact unlock_foldl_inv cid actor now _ st.tasks st hi hi

theorem completeTask_inv (cfg : StoreConfig) (now : Nat) (teamId : String)
    (input : FinalizeTaskInput) (st : StoreState) (hi : StateInv st) :
    StateInv (completeTask cfg now teamId input st).state := by
  unfold completeTask
  split
  · exact StateInv_of_tasks_eq rfl hi
  have hfin := finalizeTask_inv cfg now input .completed (by simp) st hi
  split
  case _ e st2 heq =>
    rw [heq] at hfin
    exact hfin
  case _ task st2 heq =>
    rw [heq] at hfin
    simp only [OpResult.state] at hfin ⊢
    exact unlockDependents_inv _ _ now st2 hfin

theorem failTask_inv (cfg : StoreConfig) (now : Nat) (teamId : String)
    (input : FinalizeTaskInput) (st : StoreState) (hi : StateInv st) :
    StateInv (failTask cfg now teamId input st).state := by
  unfold failTask
  split
  · exact StateInv_of_tasks_eq rfl hi
  have hfin := finalizeTask_inv cfg now input .failed (by simp) st hi
  split
  case _ e st2 heq =>
    rw [heq] at hfin
    exact hfin
  case _ task st2 heq =>
    rw [heq] at hfin
    exact hfin

theorem applyOp_inv (cfg : StoreConfig) (st : StoreState) (op : StoreOp)
    (hi : StateInv st) : StateInv (applyOp cfg st op) := by
  cases op with
  | createTask now input key => exact createTask_inv cfg now cfg.teamId input key st hi
  | claimTask now input => exact claimTask_inv cfg now cfg.teamId input st hi
  | renewTask now input => exact renewTask_inv cfg now cfg.teamId input st hi
  | completeTask now input => exact completeTask_inv cfg now cfg.teamId input st hi
  | failTask now input => exact failTask_inv cfg now cfg.teamId input st hi
  | unlockDependents now tid actor => exact unlockDependents_inv tid actor now st hi

theorem applyOps_inv (cfg : StoreConfig) :
    ∀ (ops : List StoreOp) (st : StoreState), StateInv st →
      StateInv (applyOps cfg st ops) := by
  intro ops
  induction ops with
  | nil => intro st hi; exact hi
  | cons op rest ih =>
    intro st hi
    rw [applyOps, List.foldl_cons]
    exact ih _ (applyOp_inv cfg st op hi)

theorem initialState_inv (cfg : StoreConfig) : StateInv (initialState cfg) := by
  intro t ht
  cases ht

/-- **C1**.  Every task record produced by any sequence of store operations
(createTask, claimTask, renewTask, completeTask, failTask, unlockDependents)
satisfies: `lease` is non-null iff `status = in_progress`, and whenever the
lease is non-null, `owner = lease.holder` and `epoch = lease.epoch`. -/
theorem claim_c1_lease_status_invariant (cfg : StoreConfig) (ops : List StoreOp)
    (t : TaskRecord) (ht : t ∈ (applyOps cfg (initialState cfg) ops).tasks) :
    (t.lease ≠ none ↔ t.status = TaskStatus.in_progress) ∧
      ∀ l, t.lease = some l → t.owner = some l.holder ∧ t.epoch = l.epoch :=
  applyOps_inv cfg ops (initialState cfg) (initialState_inv cfg) t ht

/-- The task record produced by creating `task-0001` at `t=1000` and claiming
it as `worker-a` at `t=2000` with the default TTL. -/
def taskClaimedC1 : TaskRecord :=
  { id := "task-0001", title := "T", description := ""
    status := .in_progress, owner := some "worker-a", deps := [], resources := []
    lease := some { holder := "worker-a", epoch := 1, expiresAt := 302000 }, epoch := 1
    timestamps := { createdAt := 1000, startedAt := some 2000, completedAt := none,
                    failedAt := none } }

/-- Witness for C1: a create followed by a claim yields an `in_progress` file
whose lease agrees with `owner` and `epoch`. -/
theorem claim_c1_lease_status_invariant_witness :
    (taskClaimedC1.lease ≠ none ↔ taskClaimedC1.status = TaskStatus.in_progress) ∧
    ∀ l, taskClaimedC1.lease = some l →
      taskClaimedC1.owner = some l.holder ∧ taskClaimedC1.epoch = l.epoch :=
  claim_c1_lease_status_invariant cfgA
    [.createTask 1000 { title := "T" } none,
     .claimTask 2000 { taskId := "task-0001", agentId := "worker-a" }]
    taskClaimedC1 (by decide)


/-! ## C6: `canWrite` -/

/-- The spec's wording of the scan condition: some task is `in_progress` with a
non-expired lease held by the requesting agent and lists a resource that equals
the normalized path or is a strict parent of it. -/
def ActiveLeaseFor (now : Nat) (agentId safePath : String) (st : StoreState) : Prop :=
  ∃ t ∈ st.tasks, t.status = TaskStatus.in_progress ∧
    ∃ l, t.lease = some l ∧ l.holder = agentId ∧ now < l.expiresAt ∧
      ∃ r ∈ t.resources, safePath = r ∨ strStartsWith safePath (r ++ "/") = true

theorem resourceMatchesPath_iff (r p : String) (hr : r ≠ "") :
    resourceMatchesPath r p = true ↔ (p = r ∨ strStartsWith p (r ++ "/") = true) := by
  simp [resourceMatchesPath, hr]

theorem taskAllowsWrite_iff (now : Nat) (agentId p : String) (t : TaskRecord)
    (hr : ∀ r ∈ t.resources, r ≠ "") :
    taskAllowsWrite now agentId p t = true ↔
      (t.status = TaskStatus.in_progress ∧ ∃ l, t.lease = some l ∧ l.holder = agentId ∧
        now < l.expiresAt ∧ ∃ r ∈ t.resources, p = r ∨ strStartsWith p (r ++ "/") = true) := by
  cases hl : t.lease with
  | none => simp [taskAllowsWrite, hl]
  | some l =>
    simp only [taskAllowsWrite, hl, Bool.and_eq_true, decide_eq_true_eq, List.any_eq_true,
      Option.some.injEq]
    constructor
    · rintro ⟨⟨⟨hs, hh⟩, he⟩, r, hrmem, hmatch⟩
      exact ⟨hs, l, rfl, hh, he, r, hrmem,
        (resourceMatchesPath_iff r p (hr r hrmem)).1 hmatch⟩
    · rintro ⟨hs, l2, hl2, hh, he, r, hrmem, hmatch⟩
      subst hl2
      exact ⟨⟨⟨hs, hh⟩, he⟩, r, hrmem,
        (resourceMatchesPath_iff r p (hr r hrmem)).2 hmatch⟩

theorem canWrite_scan_iff (now : Nat) (agentId p : String) (st : StoreState)
    (hres : ∀ t ∈ st.tasks, ∀ r ∈ t.resources, r ≠ "") :
    st.tasks.any (taskAllowsWrite now agentId p) = true ↔ ActiveLeaseFor now agentId p st := by
  rw [List.any_eq_true]
  constructor
  · rintro ⟨t, ht, hta⟩
    exact ⟨t, ht, (taskAllowsWrite_iff now agentId p t (hres t ht)).1 hta⟩
  · rintro ⟨t, ht, h⟩
    exact ⟨t, ht, (taskAllowsWrite_iff now agentId p t (hres t ht)).2 h⟩

/-- Counterexample to C6 as stated: `canWrite` does not always return a
structured `{allow, reason}` result — called with a team id other than the one
the store was constructed with, it throws `404 TEAM_NOT_FOUND`. -/
theorem claim_c6_counterexample :
    canWrite cfgA fsEmpty 0 "beta" "worker-a" "src" stP
      = .error ⟨404, "TEAM_NOT_FOUND"⟩ stP := rfl

/-- **C6** (amended).  `canWrite` invoked with the store's own team id (a
foreign team id throws `404 TEAM_NOT_FOUND` instead of returning a result), on
a store whose task resources are all non-empty (as `createTask` guarantees, it
drops empty normalized resources; an empty resource string in a hand-written
task file matches every path), returns a structured `{allow, reason}` result:
`invalid_path` when the normalized path is empty, `path_traversal_denied` when
`safeJoin` rejects, and otherwise `allow = true` with reason
`lease_active_for_resource` if and only if some task is `in_progress` with a
non-expired lease held by the requesting agent and lists a resource equal to
the normalized path or a strict parent of it, else `allow = false` with reason
`no_active_lease_for_path`. -/
theorem claim_c6_can_write (cfg : StoreConfig) (fs : Fs) (now : Nat)
    (agentId requestedPath : String) (st : StoreState)
    (hres : ∀ t ∈ st.tasks, ∀ r ∈ t.resources, r ≠ "") :
    (normalizePathPrefix requestedPath = "" →
      canWrite cfg fs now cfg.teamId agentId requestedPath st
        = .ok (false, "invalid_path") st) ∧
    (∀ e, normalizePathPrefix requestedPath ≠ "" →
      safeJoin fs cfg.teamDir (normalizePathPrefix requestedPath) = .error e →
      canWrite cfg fs now cfg.teamId agentId requestedPath st
        = .ok (false, "path_traversal_denied") st) ∧
    (∀ joined, normalizePathPrefix requestedPath ≠ "" →
      safeJoin fs cfg.teamDir (normalizePathPrefix requestedPath) = .ok joined →
      (canWrite cfg fs now cfg.teamId agentId requestedPath st
          = .ok (true, "lease_active_for_resource") st ↔
        ActiveLeaseFor now agentId (normalizePathPrefix requestedPath) st) ∧
      (canWrite cfg fs now cfg.teamId agentId requestedPath st
          = .ok (false, "no_active_lease_for_path") st ↔
        ¬ ActiveLeaseFor now agentId (normalizePathPrefix requestedPath) st)) := by
  unfold canWrite
  rw [if_neg (by simp)]
  dsimp only
  refine ⟨?_, ?_, ?_⟩
  · intro h0
    rw [if_pos h0]
  · intro e h0 hj
    rw [if_neg h0]
    simp only [hj]
  · intro joined h0 hj
    rw [if_neg h0]
    simp only [hj]
    have hact := canWrite_scan_iff now agentId (normalizePathPrefix requestedPath) st hres
    by_cases hb : st.tasks.any (taskAllowsWrite now agentId (normalizePathPrefix requestedPath))
        = true
    · rw [if_pos hb]
      refine ⟨⟨fun _ => hact.1 hb, fun _ => rfl⟩, ?_, ?_⟩
      · intro h
        injection h with h1 h2
        injection h1 with hb1 _
        exact Bool.noConfusion hb1
      · intro hna
        exact absurd (hact.1 hb) hna
    · rw [if_neg hb]
      refine ⟨⟨?_, ?_⟩, fun h => fun ha => hb (hact.2 ha), fun _ => rfl⟩
      · intro h
        injection h with h1 h2
        injection h1 with hb1 _
        exact Bool.noConfusion hb1
      · intro ha
        exact absurd (hact.2 ha) hb

/-- Witness for C6 at concrete inputs: with an in-progress task holding the
`src` resource under a live lease, a write to `src/file.ts` is allowed. -/
theorem claim_c6_can_write_witness :
    canWrite cfgA fsEmpty 2000 cfgA.teamId "worker-a" "src/file.ts" stC3
      = .ok (true, "lease_active_for_resource") stC3 :=
  ((claim_c6_can_write cfgA fsEmpty 2000 "worker-a" "src/file.ts" stC3
      (by decide)).2.2 "/ws/alpha/src/file.ts" (by decide) rfl).1.mpr
    ⟨taskC3, by simp [stC3, initialState], rfl,
      { holder := "worker-a", epoch := 1, expiresAt := 5000 }, rfl, rfl, by decide,
      "src", by simp [taskC3], Or.inr (by decide)⟩

/-! ## C8: the tolerant tail reader -/

theorem splitOnChar_ne_nil (sep : Char) : ∀ xs : List Char, splitOnChar sep xs ≠ [] := by
  intro xs
  induction xs with
  | nil => simp [splitOnChar]
  | cons c rest ih =>
    simp only [splitOnChar]
    split
    · simp
    · split
      · simp
      · simp

theorem splitOnChar_no_sep (sep : Char) : ∀ frag : List Char, sep ∉ frag →
    splitOnChar sep frag = [frag] := by
  intro frag
  induction frag with
  | nil => intro _; rfl
  | cons c rest ih =>
    intro h
    simp only [List.mem_cons, not_or] at h
    obtain ⟨hc, hrest⟩ := h
    have hcs : ¬ c = sep := fun h2 => hc h2.symm
    simp only [splitOnChar, ih hrest, if_neg hcs]

theorem splitOnChar_append_sep (sep : Char) : ∀ xs ys : List Char,
    splitOnChar sep (xs ++ sep :: ys) = splitOnChar sep xs ++ splitOnChar sep ys := by
  intro xs ys
  induction xs with
  | nil => simp [splitOnChar]
  | cons c xs ih =>
    simp only [List.cons_append, splitOnChar, List.append_eq]
    by_cases hc : c = sep
    · rw [if_pos hc, if_pos hc, ih]
      simp
    · rw [if_neg hc, if_neg hc, ih]
      obtain ⟨p, ps, hps⟩ : ∃ p ps, splitOnChar sep xs = p :: ps := by
        cases h : splitOnChar sep xs with
        | nil => exact absurd h (splitOnChar_ne_nil sep xs)
        | cons p ps => exact ⟨p, ps, rfl⟩
      simp only [hps, List.cons_append]

theorem parseLines_append_nil {α : Type} (parse : String → Option α) :
    ∀ ls : List (List Char), parseLines parse (ls ++ [[]]) = parseLines parse ls := by
  intro ls
  induction ls with
  | nil => rfl
  | cons line rest ih =>
    simp only [List.cons_append, parseLines, List.append_eq]
    rw [ih]

theorem parseLines_ok {α : Type} (parse : String → Option α) :
    ∀ ls : List (List Char), (∀ l ∈ ls, l ≠ [] → (parse (String.mk l)).isSome = true) →
      parseLines parse ls
        = .ok (ls.filterMap (fun l => if l = [] then none else parse (String.mk l))) := by
  intro ls
  induction ls with
  | nil => intro _; rfl
  | cons line rest ih =>
    intro h
    have hrest := ih (fun l hl hne => h l (List.mem_cons_of_mem _ hl) hne)
    by_cases hl : line = []
    · subst hl
      simp only [parseLines, List.filterMap_cons, hrest]
      simp
    · obtain ⟨v, hv⟩ := Option.isSome_iff_exists.1 (h line (List.mem_cons_self _ _) hl)
      simp only [parseLines, if_neg hl, hv, hrest, List.filterMap_cons]

theorem parseLines_err {α : Type} (parse : String → Option α) :
    ∀ ls : List (List Char), (∃ l ∈ ls, l ≠ [] ∧ parse (String.mk l) = none) →
      parseLines parse ls = .error ⟨"INVALID_JSONL_LINE"⟩ := by
  intro ls
  induction ls with
  | nil => rintro ⟨l, hl, _⟩; cases hl
  | cons line rest ih =>
    rintro ⟨l, hl, hne, hnone⟩
    rcases List.mem_cons.1 hl with heq | hmem
    · subst heq
      simp only [parseLines, if_neg hne, hnone]
    · by_cases hline : line = []
      · simp only [parseLines, if_pos hline]
        exact ih ⟨l, hmem, hne, hnone⟩
      · simp only [parseLines, if_neg hline]
        cases hp : parse (String.mk line) with
        | none => rfl
        | some v =>
          rw [ih ⟨l, hmem, hne, hnone⟩]

theorem strEndsWith_append_frag (raw : String) (frag : List Char) (hf : frag ≠ [])
    (hm : ('\n' : Char) ∉ frag) :
    strEndsWith (String.mk (raw.data ++ frag)) "\n" = false := by
  show (['\n'] : List Char).isSuffixOf (raw.data ++ frag) = false
  rw [Bool.eq_false_iff]
  intro h
  simp [List.isSuffixOf] at h
  obtain ⟨t, ht⟩ := h
  cases hr : frag.reverse with
  | nil => exact hf (by simpa using congrArg List.reverse hr)
  | cons c cs =>
    rw [hr] at ht
    have hc : c = '\n' := by
      have h2 := congrArg (fun l => l.head?) ht
      simpa using h2.symm
    have hcm : c ∈ frag := by
      have h3 : c ∈ frag.reverse := by rw [hr]; exact List.mem_cons_self c cs
      simpa using h3
    rw [hc] at hcm
    exact hm hcm

/-- A concrete line parser for the C8 counterexample and witness: accepts
exactly the line `1`. -/
def parseOne : String → Option Nat :=
  fun s => if s = "1" then some 1 else none

/-- Counterexample to C8 as stated: the file `"\n1\n"` has the empty string as
its first newline-terminated (non-final) line, which fails to parse as JSON,
yet the call succeeds (empty lines are skipped, not parsed); and when a
non-empty line does fail, the error code is `INVALID_JSONL_LINE`, not the
claimed `INVALID_LINE`. -/
theorem claim_c8_counterexample :
    readJsonlSafe parseOne (some "\n1\n") = .ok [1] ∧
    readJsonlSafe parseOne (some "x\n") = .error ⟨"INVALID_JSONL_LINE"⟩ ∧
    "INVALID_JSONL_LINE" ≠ "INVALID_LINE" :=
  ⟨rfl, rfl, by decide⟩

/-- **C8** (amended).  For a newline-terminated file, `readJsonlSafe` parses
exactly the non-empty lines, in file order (empty lines are skipped silently);
appending a crash-interrupted fragment that contains no newline changes
nothing — the fragment is discarded and no earlier newline-terminated line is
dropped; and if some non-empty line fails to parse the whole call fails with an
`INVALID_JSONL_LINE` error (the code the implementation uses; the spec's name
`INVALID_LINE` does not occur). -/
theorem claim_c8_tail_reader {α : Type} (parse : String → Option α) (raw : String)
    (frag : List Char) (hend : strEndsWith raw "\n" = true) (hfrag : ('\n' : Char) ∉ frag) :
    (readJsonlSafe parse (some (String.mk (raw.data ++ frag)))
        = readJsonlSafe parse (some raw)) ∧
    ((∀ l ∈ splitOnChar '\n' raw.data, l ≠ [] → (parse (String.mk l)).isSome = true) →
      readJsonlSafe parse (some raw)
        = .ok ((splitOnChar '\n' raw.data).filterMap
            (fun l => if l = [] then none else parse (String.mk l)))) ∧
    ((∃ l ∈ splitOnChar '\n' raw.data, l ≠ [] ∧ parse (String.mk l) = none) →
      readJsonlSafe parse (some raw) = .error ⟨"INVALID_JSONL_LINE"⟩) := by
  obtain ⟨zs, hzs⟩ : ∃ zs, raw.data = zs ++ ['\n'] := by
    have h := hend
    show ∃ zs, raw.data = zs ++ ['\n']
    simp [strEndsWith, List.isSuffixOf] at h
    obtain ⟨t, ht⟩ := h
    refine ⟨t.reverse, ?_⟩
    have h2 := congrArg List.reverse ht
    simpa [eq_comm] using h2
  have hraw : readJsonlSafe parse (some raw) = parseLines parse (splitOnChar '\n' raw.data) := by
    simp only [readJsonlSafe]
    rw [hend]
    simp
  refine ⟨?_, ?_, ?_⟩
  · by_cases hf : frag = []
    · subst hf
      rw [List.append_nil]
    · rw [hraw]
      simp only [readJsonlSafe]
      rw [strEndsWith_append_frag raw frag hf hfrag]
      simp only [Bool.false_eq_true, if_false]
      show parseLines parse (splitOnChar '\n' (raw.data ++ frag)).dropLast = _
      rw [hzs, List.append_assoc, List.singleton_append, splitOnChar_append_sep,
        splitOnChar_no_sep '\n' frag hfrag, List.dropLast_concat,
        splitOnChar_append_sep]
      show _ = parseLines parse (splitOnChar '\n' zs ++ splitOnChar '\n' [])
      rw [show splitOnChar '\n' ([] : List Char) = [[]] from rfl, parseLines_append_nil]
  · intro h
    rw [hraw]
    exact parseLines_ok parse _ h
  · intro h
    rw [hraw]
    exact parseLines_err parse _ h

/-- Witness for C8 at concrete inputs: appending the newline-less fragment
`x` to the newline-terminated file `1\n` does not change the read result. -/
theorem claim_c8_tail_reader_witness :
    readJsonlSafe parseOne (some (String.mk ("1\n".data ++ ['x'])))
      = readJsonlSafe parseOne (some "1\n") :=
  (claim_c8_tail_reader parseOne "1\n" ['x'] (by decide) (by decide)).1

/-! ## C7: `safeJoin` -/

theorem intercalateSlash_cons (p : List Char) (ps : List (List Char)) (h : ps ≠ []) :
    intercalateSlash (p :: ps) = p ++ '/' :: intercalateSlash ps := by
  cases ps with
  | nil => exact absurd rfl h
  | cons q qs => rfl

theorem intercalateSlash_ne_nil (p : List Char) (ps : List (List Char)) (h : p ≠ []) :
    intercalateSlash (p :: ps) ≠ [] := by
  cases ps with
  | nil => simpa [intercalateSlash] using h
  | cons q qs =>
    rw [intercalateSlash_cons p (q :: qs) (by simp)]
    simp

theorem intercalateSlash_append (xs ys : List (List Char)) (hx : xs ≠ []) (hy : ys ≠ []) :
    intercalateSlash (xs ++ ys) = intercalateSlash xs ++ '/' :: intercalateSlash ys := by
  induction xs with
  | nil => exact absurd rfl hx
  | cons p xs ih =>
    cases xs with
    | nil => simp [intercalateSlash_cons p ys hy, intercalateSlash]
    | cons q qs =>
      rw [List.cons_append, intercalateSlash_cons p ((q :: qs) ++ ys) (by simp),
        ih (by simp), intercalateSlash_cons p (q :: qs) (by simp)]
      simp

theorem intercalateSlash_splitSlash : ∀ cs : List Char, intercalateSlash (splitSlash cs) = cs := by
  intro cs
  induction cs with
  | nil => rfl
  | cons c rest ih =>
    show intercalateSlash (splitOnChar '/' (c :: rest)) = c :: rest
    simp only [splitOnChar]
    by_cases hc : c = '/'
    · rw [if_pos hc, intercalateSlash_cons [] _ (splitOnChar_ne_nil '/' rest), List.nil_append]
      rw [show splitOnChar '/' rest = splitSlash rest from rfl, ih, hc]
    · rw [if_neg hc]
      cases hs : splitOnChar '/' rest with
      | nil => exact absurd hs (splitOnChar_ne_nil '/' rest)
      | cons p ps =>
        have h2 : intercalateSlash (p :: ps) = rest := by
          rw [← hs]; exact ih
        cases ps with
        | nil =>
          have h3 : p = rest := h2
          simp [intercalateSlash, h3]
        | cons q qs =>
          rw [intercalateSlash_cons (c :: p) (q :: qs) (by simp)]
          rw [intercalateSlash_cons p (q :: qs) (by simp)] at h2
          rw [List.cons_append, h2]

theorem not_sep_mem_splitOnChar (sep : Char) : ∀ cs : List Char, ∀ p ∈ splitOnChar sep cs,
    sep ∉ p := by
  intro cs
  induction cs with
  | nil =>
    intro p hp
    simp [splitOnChar] at hp
    subst hp
    simp
  | cons c rest ih =>
    intro p hp
    simp only [splitOnChar] at hp
    by_cases hc : c = sep
    · rw [if_pos hc] at hp
      rcases List.mem_cons.1 hp with h | h
      · subst h; simp
      · exact ih p h
    · rw [if_neg hc] at hp
      cases hs : splitOnChar sep rest with
      | nil => exact absurd hs (splitOnChar_ne_nil sep rest)
      | cons q qs =>
        rw [hs] at hp
        rcases List.mem_cons.1 hp with h | h
        · subst h
          intro hmem
          rcases List.mem_cons.1 hmem with h2 | h2
          · exact hc h2.symm
          · exact ih q (by rw [hs]; exact List.mem_cons_self q qs) h2
        · exact ih p (by rw [hs]; exact List.mem_cons_of_mem q h)

theorem splitSlash_intercalateSlash : ∀ ps : List (List Char), ps ≠ [] →
    (∀ p ∈ ps, '/' ∉ p) → splitSlash (intercalateSlash ps) = ps := by
  intro ps
  induction ps with
  | nil => intro h; exact absurd rfl h
  | cons p tl ih =>
    intro _ hfree
    cases tl with
    | nil =>
      show splitOnChar '/' (intercalateSlash [p]) = [p]
      exact splitOnChar_no_sep '/' p (hfree p (List.mem_cons_self _ _))
    | cons q qs =>
      rw [intercalateSlash_cons p (q :: qs) (by simp)]
      show splitOnChar '/' (p ++ '/' :: intercalateSlash (q :: qs)) = p :: q :: qs
      rw [splitOnChar_append_sep, splitOnChar_no_sep '/' p (hfree p (List.mem_cons_self _ _))]
      rw [show splitOnChar '/' (intercalateSlash (q :: qs))
            = splitSlash (intercalateSlash (q :: qs)) from rfl]
      rw [ih (by simp) (fun x hx => hfree x (List.mem_cons_of_mem _ hx))]
      rfl

theorem npStack_append (a : Bool) : ∀ xs ys acc,
    npStack a (xs ++ ys) acc = npStack a ys (npStack a xs acc) := by
  intro xs
  induction xs with
  | nil => intro ys acc; rfl
  | cons c xs ih =>
    intro ys acc
    simp only [List.cons_append, npStack, List.append_eq]
    by_cases h1 : c = [] ∨ c = ['.']
    · rw [if_pos h1, if_pos h1, ih]
    · rw [if_neg h1, if_neg h1]
      by_cases h2 : c = ['.', '.']
      · rw [if_pos h2, if_pos h2]
        cases acc with
        | nil => exact ih ys _
        | cons p tl =>
          dsimp only
          by_cases h3 : p = ['.', '.']
          · rw [if_pos h3, if_pos h3, ih]
          · rw [if_neg h3, if_neg h3, ih]
      · rw [if_neg h2, if_neg h2, ih]

theorem npStack_plain (a : Bool) : ∀ xs acc,
    (∀ x ∈ xs, x ≠ [] ∧ x ≠ ['.'] ∧ x ≠ ['.', '.']) →
    npStack a xs acc = xs.reverse ++ acc := by
  intro xs
  induction xs with
  | nil => intro acc _; rfl
  | cons c xs ih =>
    intro acc h
    obtain ⟨hne, hdot, hdd⟩ := h c (List.mem_cons_self _ _)
    simp only [npStack]
    rw [if_neg (by simp [hne, hdot]), if_neg hdd,
      ih (c :: acc) (fun x hx => h x (List.mem_cons_of_mem _ hx))]
    simp

theorem npStack_elem_ne (a : Bool) : ∀ xs acc,
    (∀ x ∈ acc, x ≠ [] ∧ x ≠ ['.']) →
    ∀ x ∈ npStack a xs acc, x ≠ [] ∧ x ≠ ['.'] := by
  intro xs
  induction xs with
  | nil => intro acc hacc; exact hacc
  | cons c xs ih =>
    intro acc hacc
    simp only [npStack]
    by_cases h1 : c = [] ∨ c = ['.']
    · rw [if_pos h1]; exact ih acc hacc
    · rw [if_neg h1]
      by_cases h2 : c = ['.', '.']
      · rw [if_pos h2]
        cases acc with
        | nil =>
          dsimp only
          refine ih _ ?_
          intro x hx
          split at hx
          · rcases List.mem_singleton.1 hx with h
            subst h; subst h2; simp
          · cases hx
        | cons p tl =>
          dsimp only
          by_cases h3 : p = ['.', '.']
          · rw [if_pos h3]
            refine ih _ ?_
            intro x hx
            rcases List.mem_cons.1 hx with h | h
            · subst h; subst h2; simp
            · exact hacc x h
          · rw [if_neg h3]
            exact ih tl (fun x hx => hacc x (List.mem_cons_of_mem _ hx))
      · rw [if_neg h2]
        refine ih _ ?_
        intro x hx
        rcases List.mem_cons.1 hx with h | h
        · subst h
          simp only [not_or] at h1
          exact ⟨h1.1, h1.2⟩
        · exact hacc x h

theorem npStack_elem_src (a : Bool) : ∀ xs acc, ∀ x ∈ npStack a xs acc,
    x ∈ acc ∨ x ∈ xs ∨ x = ['.', '.'] := by
  intro xs
  induction xs with
  | nil => intro acc x hx; exact Or.inl hx
  | cons c xs ih =>
    intro acc x hx
    simp only [npStack] at hx
    by_cases h1 : c = [] ∨ c = ['.']
    · rw [if_pos h1] at hx
      rcases ih acc x hx with h | h | h
      · exact Or.inl h
      · exact Or.inr (Or.inl (List.mem_cons_of_mem _ h))
      · exact Or.inr (Or.inr h)
    · rw [if_neg h1] at hx
      by_cases h2 : c = ['.', '.']
      · rw [if_pos h2] at hx
        cases acc with
        | nil =>
          dsimp only at hx
          rcases ih _ x hx with h | h | h
          · split at h
            · rcases List.mem_singleton.1 h with h4
              exact Or.inr (Or.inr (h4.trans h2))
            · cases h
          · exact Or.inr (Or.inl (List.mem_cons_of_mem _ h))
          · exact Or.inr (Or.inr h)
        | cons p tl =>
          dsimp only at hx
          by_cases h3 : p = ['.', '.']
          · rw [if_pos h3] at hx
            rcases ih _ x hx with h | h | h
            · rcases List.mem_cons.1 h with h4 | h4
              · exact Or.inr (Or.inr (h4.trans h2))
              · exact Or.inl h4
            · exact Or.inr (Or.inl (List.mem_cons_of_mem _ h))
            · exact Or.inr (Or.inr h)
          · rw [if_neg h3] at hx
            rcases ih tl x hx with h | h | h
            · exact Or.inl (List.mem_cons_of_mem _ h)
            · exact Or.inr (Or.inl (List.mem_cons_of_mem _ h))
            · exact Or.inr (Or.inr h)
      · rw [if_neg h2] at hx
        rcases ih _ x hx with h | h | h
        · rcases List.mem_cons.1 h with h4 | h4
          · exact Or.inr (Or.inl (by rw [h4]; exact List.mem_cons_self _ _))
          · exact Or.inl h4
        · exact Or.inr (Or.inl (List.mem_cons_of_mem _ h))
        · exact Or.inr (Or.inr h)

theorem strEndsWith_concat_self (d : List Char) (c : Char) :
    strEndsWith (String.mk (d ++ [c])) (String.mk [c]) = true := by
  show ([c] : List Char).isSuffixOf (d ++ [c]) = true
  simp [List.isSuffixOf, List.isPrefixOf]

theorem strEndsWith_of_getLast (s : String) (c : Char) (h : s.data.getLast? ≠ some c) :
    strEndsWith s (String.mk [c]) = false := by
  show ([c] : List Char).isSuffixOf s.data = false
  rw [Bool.eq_false_iff]
  intro hsuf
  simp [List.isSuffixOf] at hsuf
  obtain ⟨t, ht⟩ := hsuf
  have h2 : s.data = t.reverse ++ [c] := by
    have h3 := congrArg List.reverse ht
    simpa [eq_comm] using h3
  rw [h2] at h
  simp at h

theorem intercalateSlash_getLast_ne_slash : ∀ ps : List (List Char), ps ≠ [] →
    (∀ p ∈ ps, p ≠ [] ∧ '/' ∉ p) →
    (intercalateSlash ps).getLast? ≠ some '/' := by
  intro ps
  induction ps with
  | nil => intro h; exact absurd rfl h
  | cons p tl ih =>
    intro _ hps
    obtain ⟨hne, hfree⟩ := hps p (List.mem_cons_self _ _)
    cases tl with
    | nil =>
      show (intercalateSlash [p]).getLast? ≠ some '/'
      intro heq
      exact hfree (List.mem_of_mem_getLast? heq)
    | cons q qs =>
      rw [intercalateSlash_cons p (q :: qs) (by simp)]
      have hqs : intercalateSlash (q :: qs) ≠ [] :=
        intercalateSlash_ne_nil q qs (hps q (List.mem_cons_of_mem _ (List.mem_cons_self _ _))).1
      rw [show p ++ '/' :: intercalateSlash (q :: qs)
            = (p ++ ['/']) ++ intercalateSlash (q :: qs) by simp]
      rw [List.getLast?_append_of_ne_nil _ hqs]
      exact ih (by simp) (fun x hx => hps x (List.mem_cons_of_mem _ hx))

theorem containsSub_eq (hay needle : List Char) :
    containsSub hay needle
      = (needle.isPrefixOf hay ||
          match hay with
          | [] => false
          | _ :: t => containsSub t needle) := by
  cases hay <;> simp [containsSub]

theorem containsSub_append_self : ∀ a s b : List Char, containsSub (a ++ (s ++ b)) s = true := by
  intro a s b
  induction a with
  | nil =>
    rw [List.nil_append, containsSub_eq]
    have hp : s.isPrefixOf (s ++ b) = true := by simp [List.isPrefixOf_iff_prefix]
    rw [hp, Bool.true_or]
  | cons c a ih =>
    rw [List.cons_append, containsSub_eq]
    dsimp only
    rw [ih, Bool.or_true]

theorem dd_mem_check (cs : List Char) (hmem : ['.', '.'] ∈ splitOnChar '/' cs) :
    cs = ['.', '.'] ∨ (['.', '.', '/'] : List Char).isPrefixOf cs = true ∨
      containsSub cs ['/', '.', '.', '/'] = true ∨
      (['/', '.', '.'] : List Char).isSuffixOf cs = true := by
  obtain ⟨l1, l2, hsplit⟩ := List.append_of_mem hmem
  have hcs : cs = intercalateSlash (l1 ++ ['.', '.'] :: l2) := by
    have h0 := intercalateSlash_splitSlash cs
    rw [show splitSlash cs = splitOnChar '/' cs from rfl, hsplit] at h0
    exact h0.symm
  cases l1 with
  | nil =>
    cases l2 with
    | nil =>
      left
      simpa [intercalateSlash] using hcs
    | cons q qs =>
      right; left
      rw [hcs, List.nil_append, intercalateSlash_cons _ (q :: qs) (by simp)]
      show (['.', '.', '/'] : List Char).isPrefixOf
        ('.' :: '.' :: '/' :: intercalateSlash (q :: qs)) = true
      simp [List.isPrefixOf]
  | cons p ps =>
    cases l2 with
    | nil =>
      right; right; right
      rw [hcs, intercalateSlash_append (p :: ps) [['.', '.']] (by simp) (by simp)]
      rw [show ('/' :: intercalateSlash [['.', '.']]) = (['/', '.', '.'] : List Char) from rfl]
      simp [List.isSuffixOf]
    | cons q qs =>
      right; right; left
      rw [hcs, intercalateSlash_append (p :: ps) (['.', '.'] :: q :: qs) (by simp) (by simp),
        intercalateSlash_cons ['.', '.'] (q :: qs) (by simp)]
      rw [show intercalateSlash (p :: ps) ++ '/' :: (['.', '.'] ++ '/' :: intercalateSlash (q :: qs))
            = intercalateSlash (p :: ps) ++ (['/', '.', '.', '/'] ++ intercalateSlash (q :: qs))
          by simp]
      exact containsSub_append_self _ _ _

/-- Strip one trailing `/` (the lexical normalization keeps it, `resolve`
drops it). -/
def stripTrailingSlash (s : String) : String :=
  if strEndsWith s "/" then String.mk s.data.dropLast else s

/-- The spec's description of a successful `safeJoin`: the real path of the
root extended by the lexical normalization of the relative path (a trivial
normalization `.` or `./` extends by nothing; a kept trailing slash is
dropped, as `resolve` does). -/
def extendPath (root normalized : String) : String :=
  if normalized = "." ∨ normalized = "./" then root
  else root ++ "/" ++ stripTrailingSlash normalized

theorem intercalateSlash_ne_dot (nps : List (List Char)) (h : nps ≠ [])
    (hp : ∀ p ∈ nps, p ≠ [] ∧ p ≠ ['.']) : intercalateSlash nps ≠ ['.'] := by
  cases nps with
  | nil => exact absurd rfl h
  | cons p tl =>
    cases tl with
    | nil =>
      show intercalateSlash [p] ≠ ['.']
      exact (hp p (List.mem_cons_self _ _)).2
    | cons q qs =>
      rw [intercalateSlash_cons p (q :: qs) (by simp)]
      intro heq
      have hlen := congrArg List.length heq
      have hp1 := List.length_pos.2 (hp p (List.mem_cons_self _ _)).1
      simp [List.length_append] at hlen
      omega

theorem intercalateSlash_ne_dotslash (nps : List (List Char)) (h : nps ≠ [])
    (hp : ∀ p ∈ nps, p ≠ [] ∧ '/' ∉ p) : intercalateSlash nps ≠ ['.', '/'] := by
  cases nps with
  | nil => exact absurd rfl h
  | cons p tl =>
    cases tl with
    | nil =>
      show intercalateSlash [p] ≠ ['.', '/']
      intro heq
      have : '/' ∈ p := by
        show '/' ∈ intercalateSlash [p]
        rw [heq]
        simp
      exact (hp p (List.mem_cons_self _ _)).2 this
    | cons q qs =>
      rw [intercalateSlash_cons p (q :: qs) (by simp)]
      intro heq
      have hlen := congrArg List.length heq
      have hp1 := List.length_pos.2 (hp p (List.mem_cons_self _ _)).1
      have hq1 : intercalateSlash (q :: qs) ≠ [] :=
        intercalateSlash_ne_nil q qs (hp q (List.mem_cons_of_mem _ (List.mem_cons_self _ _))).1
      have hq2 := List.length_pos.2 hq1
      simp [List.length_append] at hlen
      omega

theorem posixNormalizeChars_shape (cs : List Char) (habs : cs.head? ≠ some '/') :
    posixNormalizeChars cs = ['.'] ∨ posixNormalizeChars cs = ['.', '/'] ∨
      (normalizeParts true (splitSlash cs) ≠ [] ∧
        (posixNormalizeChars cs = intercalateSlash (normalizeParts true (splitSlash cs)) ∨
         posixNormalizeChars cs
           = intercalateSlash (normalizeParts true (splitSlash cs)) ++ ['/'])) := by
  unfold posixNormalizeChars
  by_cases h0 : cs = []
  · rw [if_pos h0]
    left
    rfl
  · rw [if_neg h0]
    dsimp only
    rw [if_neg habs]
    have hd : decide (cs.head? = some '/') = false := decide_eq_false habs
    rw [hd]
    simp only [Bool.not_false]
    by_cases hb : intercalateSlash (normalizeParts true (splitSlash cs)) = []
    · rw [if_pos hb]
      by_cases ht : cs.getLast? = some '/'
      · rw [if_pos ht]
        right; left; rfl
      · rw [if_neg ht]
        left; rfl
    · rw [if_neg hb]
      right; right
      refine ⟨fun h => hb (by rw [h]; rfl), ?_⟩
      by_cases ht : cs.getLast? = some '/'
      · rw [if_pos ht]
        right; rfl
      · rw [if_neg ht]
        left
        simp

theorem dd_fires (n : String) (hmem : ['.', '.'] ∈ splitSlash n.data) :
    (decide (n = "..") || strStartsWith n "../" || strContains n "/../"
      || strEndsWith n "/..") = true := by
  rcases dd_mem_check n.data hmem with h | h | h | h
  · have hn : n = ".." := by
      cases n
      simp at h
      simp [h]
    simp [hn]
  · have hs : strStartsWith n "../" = true := h
    simp [hs]
  · have hs : strContains n "/../" = true := h
    simp [hs]
  · have hs : strEndsWith n "/.." = true := h
    simp [hs]

theorem assertNoTraversal_error (relative : String) (e : IoError)
    (h : assertNoTraversal relative = .error e) : e = ⟨"PATH_TRAVERSAL"⟩ := by
  unfold assertNoTraversal at h
  split at h
  · exact (Except.error.inj h).symm
  · dsimp only at h
    split at h
    · exact (Except.error.inj h).symm
    · exact Except.noConfusion h

theorem walkSegments_error (fs : Fs) (rootReal : String) : ∀ (parts : List String)
    (current : String) (e : IoError), walkSegments fs rootReal parts current = .error e →
    e = ⟨"SYMLINK_ESCAPE"⟩ ∧ ∃ next target, fs.lookup next = .symlink (some target) ∧
      isWithinRoot rootReal target = false := by
  intro parts
  induction parts with
  | nil => intro current e h; exact Except.noConfusion h
  | cons part rest ih =>
    intro current e h
    simp only [walkSegments] at h
    cases hl : fs.lookup (posixJoin2 current part) with
    | missing =>
      simp only [hl] at h
      exact Except.noConfusion h
    | real =>
      simp only [hl] at h
      exact ih _ e h
    | symlink target =>
      cases target with
      | none =>
        simp only [hl] at h
        exact Except.noConfusion h
      | some linkTarget =>
        simp only [hl] at h
        split at h
        · exact ih _ e h
        · refine ⟨(Except.error.inj h).symm, posixJoin2 current part, linkTarget, hl, ?_⟩
          rename_i hw
          exact Bool.not_eq_true _ ▸ Bool.eq_false_iff.2 hw

theorem npStack_cons_skip (a : Bool) (c : List Char) (rest acc : List (List Char))
    (h : c = [] ∨ c = ['.']) : npStack a (c :: rest) acc = npStack a rest acc := by
  simp only [npStack, if_pos h]

theorem posixResolveAbs_extend (rootReal : String) (rparts : List (List Char))
    (hroot : splitSlash rootReal.data = [] :: rparts) (hrne : rparts ≠ [])
    (hplain : ∀ p ∈ rparts, p ≠ [] ∧ p ≠ ['.'] ∧ p ≠ ['.', '.'])
    (n : String)
    (hshape : n = "." ∨ n = "./" ∨
      (∃ nps : List (List Char), nps ≠ [] ∧
        (∀ x ∈ nps, x ≠ [] ∧ x ≠ ['.'] ∧ x ≠ ['.', '.'] ∧ '/' ∉ x) ∧
        (n.data = intercalateSlash nps ∨ n.data = intercalateSlash nps ++ ['/']))) :
    posixResolveAbs rootReal n = extendPath rootReal n := by
  obtain ⟨rp, rtl, hrp⟩ : ∃ rp rtl, rparts = rp :: rtl := by
    cases rparts with
    | nil => exact absurd rfl hrne
    | cons rp rtl => exact ⟨rp, rtl, rfl⟩
  have hrd : rootReal.data = '/' :: intercalateSlash rparts := by
    have h1 := intercalateSlash_splitSlash rootReal.data
    rw [hroot, intercalateSlash_cons [] rparts hrne, List.nil_append] at h1
    exact h1.symm
  have hrne2 : intercalateSlash rparts ≠ [] := by
    rw [hrp]
    exact intercalateSlash_ne_nil rp rtl (hplain rp (by rw [hrp]; exact List.mem_cons_self _ _)).1
  have hsplit : splitSlash (rootReal.data ++ '/' :: n.data)
      = ([] :: rparts) ++ splitSlash n.data := by
    show splitOnChar '/' (rootReal.data ++ '/' :: n.data) = _
    rw [splitOnChar_append_sep, ← hroot]
    rfl
  have hstack0 : npStack false ([] :: rparts) [] = rparts.reverse := by
    rw [npStack_cons_skip false [] rparts [] (Or.inl rfl),
      npStack_plain false rparts [] hplain, List.append_nil]
  unfold posixResolveAbs
  rcases hshape with hn | hn | hn
  · subst hn
    have hss : splitSlash (rootReal.data ++ '/' :: (".").data) = ([] :: rparts) ++ [['.']] :=
      hsplit
    rw [hss]
    have hnp : normalizeParts false (([] :: rparts) ++ [['.']]) = rparts := by
      unfold normalizeParts
      rw [npStack_append, hstack0, npStack_cons_skip false ['.'] [] rparts.reverse (Or.inr rfl)]
      simp [npStack]
    rw [hnp]
    dsimp only
    rw [if_neg hrne2]
    rw [show extendPath rootReal "." = rootReal from by
      unfold extendPath
      rw [if_pos (Or.inl rfl)]]
    apply String.ext
    simp [hrd]
  · subst hn
    have hss : splitSlash (rootReal.data ++ '/' :: ("./").data) = ([] :: rparts) ++ [['.'], []] :=
      hsplit
    rw [hss]
    have hnp : normalizeParts false (([] :: rparts) ++ [['.'], []]) = rparts := by
      unfold normalizeParts
      rw [npStack_append, hstack0, npStack_cons_skip false ['.'] [[]] rparts.reverse (Or.inr rfl),
        npStack_cons_skip false [] [] rparts.reverse (Or.inl rfl)]
      simp [npStack]
    rw [hnp]
    dsimp only
    rw [if_neg hrne2]
    rw [show extendPath rootReal "./" = rootReal from by
      unfold extendPath
      rw [if_pos (Or.inr rfl)]]
    apply String.ext
    simp [hrd]
  · obtain ⟨nps, hne, hx, hdata⟩ := hn
    have hfree : ∀ x ∈ nps, '/' ∉ x := fun x hx' => (hx x hx').2.2.2
    have hplain2 : ∀ x ∈ nps, x ≠ [] ∧ x ≠ ['.'] ∧ x ≠ ['.', '.'] :=
      fun x hx' => ⟨(hx x hx').1, (hx x hx').2.1, (hx x hx').2.2.1⟩
    have hnne : intercalateSlash nps ≠ [] := by
      obtain ⟨q, qs, hq⟩ : ∃ q qs, nps = q :: qs := by
        cases nps with
        | nil => exact absurd rfl hne
        | cons q qs => exact ⟨q, qs, rfl⟩
      rw [hq]
      exact intercalateSlash_ne_nil q qs (hx q (by rw [hq]; exact List.mem_cons_self _ _)).1
    have hss : splitSlash n.data = nps ∨ splitSlash n.data = nps ++ [[]] := by
      rcases hdata with hd | hd
      · left
        rw [hd]
        exact splitSlash_intercalateSlash nps hne hfree
      · right
        have h2 : n.data = intercalateSlash (nps ++ [[]]) := by
          rw [intercalateSlash_append nps [[]] hne (by simp)]
          exact hd
        rw [h2]
        refine splitSlash_intercalateSlash (nps ++ [[]]) (by simp) ?_
        intro x hx'
        rcases List.mem_append.1 hx' with h | h
        · exact hfree x h
        · rcases List.mem_singleton.1 h with h2
          subst h2
          simp
    have hstack : npStack false (splitSlash n.data) rparts.reverse
        = nps.reverse ++ rparts.reverse := by
      rcases hss with h | h
      · rw [h, npStack_plain false nps _ hplain2]
      · rw [h, npStack_append, npStack_plain false nps _ hplain2,
          npStack_cons_skip false [] [] _ (Or.inl rfl)]
        rfl
    have hnp : normalizeParts false (([] :: rparts) ++ splitSlash n.data)
        = rparts ++ nps := by
      unfold normalizeParts
      rw [npStack_append, hstack0, hstack]
      simp
    rw [hsplit, hnp]
    dsimp only
    have hbody : intercalateSlash (rparts ++ nps)
        = intercalateSlash rparts ++ '/' :: intercalateSlash nps :=
      intercalateSlash_append rparts nps hrne hne
    rw [hbody, if_neg (by simp)]
    have hndot : ¬ n = "." := by
      intro h
      have hd2 : n.data = ['.'] := by rw [h]
      rcases hdata with hd | hd
      · exact intercalateSlash_ne_dot nps hne
          (fun x hx' => ⟨(hx x hx').1, (hx x hx').2.1⟩) (hd.symm.trans hd2)
      · have h3 : intercalateSlash nps ++ ['/'] = ['.'] := hd.symm.trans hd2
        have h4 := congrArg List.getLast? h3
        rw [List.getLast?_concat] at h4
        simp at h4
    have hndotslash : ¬ n = "./" := by
      intro h
      have hd2 : n.data = ['.', '/'] := by rw [h]
      rcases hdata with hd | hd
      · exact intercalateSlash_ne_dotslash nps hne
          (fun x hx' => ⟨(hx x hx').1, hfree x hx'⟩) (hd.symm.trans hd2)
      · have h3 : intercalateSlash nps ++ ['/'] = ['.'] ++ ['/'] := by
          rw [← List.singleton_append]
          exact hd.symm.trans hd2
        exact intercalateSlash_ne_dot nps hne
          (fun x hx' => ⟨(hx x hx').1, (hx x hx').2.1⟩) (List.append_cancel_right h3)
    unfold extendPath
    rw [if_neg (by rintro (h | h); exacts [hndot h, hndotslash h])]
    unfold stripTrailingSlash
    rcases hdata with hd | hd
    · have hend : strEndsWith n "/" = false := by
        have hg : n.data.getLast? ≠ some '/' := by
          rw [hd]
          exact intercalateSlash_getLast_ne_slash nps hne
            (fun x hx' => ⟨(hx x hx').1, hfree x hx'⟩)
        exact strEndsWith_of_getLast n '/' hg
      rw [hend]
      simp only [Bool.false_eq_true, if_false]
      apply String.ext
      simp [hrd, hd]
    · have hend : strEndsWith n "/" = true := by
        have hn2 : n = String.mk (intercalateSlash nps ++ ['/']) := String.ext hd
        rw [hn2]
        exact strEndsWith_concat_self _ '/'
      rw [hend]
      simp only [if_true]
      apply String.ext
      simp [hrd, hd, List.dropLast_concat]

/-- The candidate segment paths the `safeJoin` walk visits, as the spec
describes the iteration: starting at the real root, each step looks up the
join of the current path and the next part; an ordinary (non-link) entry
advances the walk to that join, and a symbolic link whose real target lies
inside the root redirects the walk to the target.  A missing segment ends the
walk, so only existing segments are visited. -/
inductive WalkVisits (fs : Fs) (rootReal : String) :
    List String → String → String → Prop where
  | here (part : String) (rest : List String) (current : String) :
      WalkVisits fs rootReal (part :: rest) current (posixJoin2 current part)
  | step_real (part : String) (rest : List String) (current next : String)
      (h : fs.lookup (posixJoin2 current part) = .real)
      (hv : WalkVisits fs rootReal rest (posixJoin2 current part) next) :
      WalkVisits fs rootReal (part :: rest) current next
  | step_link (part : String) (rest : List String) (current target next : String)
      (h : fs.lookup (posixJoin2 current part) = .symlink (some target))
      (hin : isWithinRoot rootReal target = true)
      (hv : WalkVisits fs rootReal rest target next) :
      WalkVisits fs rootReal (part :: rest) current next

theorem walkSegments_escape (fs : Fs) (rootReal : String) (parts : List String)
    (current next target : String)
    (hv : WalkVisits fs rootReal parts current next) :
    fs.lookup next = .symlink (some target) →
    isWithinRoot rootReal target = false →
    walkSegments fs rootReal parts current = .error ⟨"SYMLINK_ESCAPE"⟩ := by
  induction hv with
  | here part rest current =>
    intro hlook hout
    simp only [walkSegments, hlook]
    rw [if_neg (by simp [hout])]
  | step_real part rest current next h hv ih =>
    intro hlook hout
    simp only [walkSegments, h]
    exact ih hlook hout
  | step_link part rest current target2 next h hin hv ih =>
    intro hlook hout
    simp only [walkSegments, h]
    rw [if_pos hin]
    exact ih hlook hout

/-- Counterexample to C7 as stated: `a/../b` contains a `..` component before
normalization, yet `safeJoin` accepts it — only the normalized path is checked
for `..`, and normalization cancels the `..` against `a`. -/
theorem claim_c7_counterexample :
    ['.', '.'] ∈ splitSlash ("a/../b").data ∧
    safeJoin fsEmpty "/r" "a/../b" = .ok "/r/b" :=
  ⟨by decide, rfl⟩

/-- **C7** (amended).  On a canonical real root (`realpath(root)` splits into a
leading empty piece and at least one plain component), `safeJoin(root, rel)`:
rejects absolute inputs with `PATH_TRAVERSAL`; rejects any input whose
normalization still contains a `..` component with `PATH_TRAVERSAL` (a `..`
only present before normalization is cancelled, not rejected); fails only with
`PATH_TRAVERSAL` or with `SYMLINK_ESCAPE`, the latter only when some walked
segment is a symbolic link whose real target lies outside the real root;
conversely, whenever the walk of the normalized segments visits an existing
segment that is a symbolic link whose real target lies outside the real root,
the call is rejected — with `SYMLINK_ESCAPE` unless an earlier guard already
rejected it as `PATH_TRAVERSAL`; and on success returns exactly
`realpath(root)` extended by the lexical normalization of `rel`, a path that
never lies outside `realpath(root)`. -/
theorem claim_c7_safe_join (fs : Fs) (teamRoot relative : String)
    (rparts : List (List Char))
    (hroot : splitSlash (fs.realpath teamRoot).data = [] :: rparts)
    (hrne : rparts ≠ [])
    (hplain : ∀ p ∈ rparts, p ≠ [] ∧ p ≠ ['.'] ∧ p ≠ ['.', '.']) :
    (posixIsAbsolute relative = true →
      safeJoin fs teamRoot relative = .error ⟨"PATH_TRAVERSAL"⟩) ∧
    (['.', '.'] ∈ splitSlash (posixNormalize relative).data →
      safeJoin fs teamRoot relative = .error ⟨"PATH_TRAVERSAL"⟩) ∧
    (∀ e, safeJoin fs teamRoot relative = .error e →
      e = ⟨"PATH_TRAVERSAL"⟩ ∨
        (e = ⟨"SYMLINK_ESCAPE"⟩ ∧ ∃ next target,
          fs.lookup next = .symlink (some target) ∧
          isWithinRoot (fs.realpath teamRoot) target = false)) ∧
    (∀ next target,
      WalkVisits fs (fs.realpath teamRoot)
        (((splitSlash (posixNormalize relative).data).filter (· ≠ [])).map String.mk)
        (fs.realpath teamRoot) next →
      fs.lookup next = .symlink (some target) →
      isWithinRoot (fs.realpath teamRoot) target = false →
      safeJoin fs teamRoot relative ≠ .error ⟨"PATH_TRAVERSAL"⟩ →
      safeJoin fs teamRoot relative = .error ⟨"SYMLINK_ESCAPE"⟩) ∧
    (∀ p, safeJoin fs teamRoot relative = .ok p →
      p = extendPath (fs.realpath teamRoot) (posixNormalize relative) ∧
        isWithinRoot (fs.realpath teamRoot) p = true) := by
  have hA : posixIsAbsolute relative = true →
      safeJoin fs teamRoot relative = .error ⟨"PATH_TRAVERSAL"⟩ := by
    intro habs
    have ha : assertNoTraversal relative = .error ⟨"PATH_TRAVERSAL"⟩ := by
      unfold assertNoTraversal
      rw [if_pos habs]
    unfold safeJoin
    simp only [ha]
  refine ⟨hA, ?_, ?_, ?_, ?_⟩
  · intro hmem
    by_cases habs : posixIsAbsolute relative = true
    · exact hA habs
    · have hcond := dd_fires (posixNormalize relative) hmem
      have ha : assertNoTraversal relative = .error ⟨"PATH_TRAVERSAL"⟩ := by
        unfold assertNoTraversal
        rw [if_neg habs]
        rw [if_pos hcond]
      unfold safeJoin
      simp only [ha]
  · intro e he
    unfold safeJoin at he
    cases ha : assertNoTraversal relative with
    | error e2 =>
      simp only [ha] at he
      left
      have h1 := assertNoTraversal_error relative e2 ha
      exact (Except.error.inj he) ▸ h1
    | ok u =>
      simp only [ha] at he
      split at he
      · split at he
        · rename_i e2 hw
          right
          obtain ⟨hsym, hex⟩ := walkSegments_error fs (fs.realpath teamRoot) _ _ e2 hw
          exact ⟨(Except.error.inj he) ▸ hsym, hex⟩
        · exact Except.noConfusion he
      · left
        exact (Except.error.inj he).symm
  · intro next target hv hlook hout hnp
    cases ha : assertNoTraversal relative with
    | error e2 =>
      exfalso
      apply hnp
      have h1 := assertNoTraversal_error relative e2 ha
      unfold safeJoin
      simp only [ha]
      rw [h1]
    | ok u =>
      by_cases hw : isWithinRoot (fs.realpath teamRoot)
          (posixResolveAbs (fs.realpath teamRoot) (posixNormalize relative)) = true
      · unfold safeJoin
        simp only [ha]
        rw [if_pos hw]
        have hwe := walkSegments_escape fs (fs.realpath teamRoot) _ _ next target hv hlook hout
        simp only [hwe]
      · exfalso
        apply hnp
        unfold safeJoin
        simp only [ha]
        rw [if_neg hw]
  · intro p hp
    unfold safeJoin at hp
    cases ha : assertNoTraversal relative with
    | error e2 =>
      simp only [ha] at hp
      exact Except.noConfusion hp
    | ok u =>
      have habs : ¬ posixIsAbsolute relative = true := by
        intro h2
        unfold assertNoTraversal at ha
        rw [if_pos h2] at ha
        exact Except.noConfusion ha
      have hcond : ¬ (decide (posixNormalize relative = "..")
          || strStartsWith (posixNormalize relative) "../"
          || strContains (posixNormalize relative) "/../"
          || strEndsWith (posixNormalize relative) "/..") = true := by
        intro h2
        unfold assertNoTraversal at ha
        rw [if_neg habs] at ha
        rw [if_pos h2] at ha
        exact Except.noConfusion ha
      have habs' : relative.data.head? ≠ some '/' := by
        intro h2
        exact habs (by simp [posixIsAbsolute, h2])
      have hshape : posixNormalize relative = "." ∨ posixNormalize relative = "./" ∨
          (∃ nps : List (List Char), nps ≠ [] ∧
            (∀ x ∈ nps, x ≠ [] ∧ x ≠ ['.'] ∧ x ≠ ['.', '.'] ∧ '/' ∉ x) ∧
            ((posixNormalize relative).data = intercalateSlash nps ∨
             (posixNormalize relative).data = intercalateSlash nps ++ ['/'])) := by
        rcases posixNormalizeChars_shape relative.data habs' with hs | hs | hs
        · exact Or.inl (String.ext hs)
        · exact Or.inr (Or.inl (String.ext hs))
        · obtain ⟨hne0, hd0⟩ := hs
          right; right
          have hmemnp : ∀ x ∈ normalizeParts true (splitSlash relative.data),
              x ∈ npStack true (splitSlash relative.data) [] := by
            intro x hx'
            exact List.mem_reverse.1 hx'
          have hplain_ne : ∀ x ∈ normalizeParts true (splitSlash relative.data),
              x ≠ [] ∧ x ≠ ['.'] := by
            intro x hx'
            exact npStack_elem_ne true (splitSlash relative.data) []
              (by intro y hy; cases hy) x (hmemnp x hx')
          have hfree : ∀ x ∈ normalizeParts true (splitSlash relative.data), '/' ∉ x := by
            intro x hx'
            rcases npStack_elem_src true (splitSlash relative.data) [] x (hmemnp x hx')
              with h | h | h
            · cases h
            · exact not_sep_mem_splitOnChar '/' relative.data x h
            · subst h
              decide
          have hnpne : normalizeParts true (splitSlash relative.data) ≠ [] := hne0
          have hss : splitSlash (posixNormalize relative).data
                = normalizeParts true (splitSlash relative.data) ∨
              splitSlash (posixNormalize relative).data
                = normalizeParts true (splitSlash relative.data) ++ [[]] := by
            rcases hd0 with hd | hd
            · left
              rw [show (posixNormalize relative).data
                    = posixNormalizeChars relative.data from rfl, hd]
              exact splitSlash_intercalateSlash _ hnpne hfree
            · right
              have h2 : posixNormalizeChars relative.data
                  = intercalateSlash (normalizeParts true (splitSlash relative.data) ++ [[]]) := by
                rw [intercalateSlash_append _ [[]] hnpne (by simp)]
                exact hd
              rw [show (posixNormalize relative).data
                    = posixNormalizeChars relative.data from rfl, h2]
              refine splitSlash_intercalateSlash _ (by simp) ?_
              intro x hx'
              rcases List.mem_append.1 hx' with h | h
              · exact hfree x h
              · rcases List.mem_singleton.1 h with h3
                subst h3
                simp
          have hdd : ['.', '.'] ∉ normalizeParts true (splitSlash relative.data) := by
            intro hmem
            refine hcond (dd_fires (posixNormalize relative) ?_)
            rcases hss with h | h
            · rw [h]
              exact hmem
            · rw [h]
              exact List.mem_append_left _ hmem
          refine ⟨normalizeParts true (splitSlash relative.data), hnpne, ?_, hd0⟩
          intro x hx'
          refine ⟨(hplain_ne x hx').1, (hplain_ne x hx').2, ?_, hfree x hx'⟩
          intro h3
          subst h3
          exact hdd hx'
      simp only [ha] at hp
      split at hp
      · rename_i hw
        split at hp
        · exact Except.noConfusion hp
        · have hpj : p = posixResolveAbs (fs.realpath teamRoot) (posixNormalize relative) :=
            (Except.ok.inj hp).symm
          constructor
          · rw [hpj]
            exact posixResolveAbs_extend (fs.realpath teamRoot) rparts hroot hrne hplain
              (posixNormalize relative) hshape
          · rw [hpj]
            exact hw
      · exact Except.noConfusion hp

/-- Witness for C7 at concrete inputs: joining `a/b` under the real root `/r`
yields `/r/a/b`, which the theorem equates with the root extended by the
normalization and certifies as within the root. -/
theorem claim_c7_safe_join_witness :
    ("/r/a/b" : String) = extendPath (fsEmpty.realpath "/r") (posixNormalize "a/b") ∧
    isWithinRoot (fsEmpty.realpath "/r") "/r/a/b" = true :=
  (claim_c7_safe_join fsEmpty "/r" "a/b" [['r']] rfl (by simp) (by decide)).2.2.2.2
    "/r/a/b" rfl

end PiTeam
